import Mathlib

/-!
Verification of the geometric rectification and bit-matrix core of a barcode
scanner (TypeScript sources: `BitMatrix.ts`, `PerspectiveTransform` (same file),
`GridSampler.ts`, `DefaultGridSampler.ts`, `BitSource.ts`, `Exception.ts`).

Shallow embedding conventions:
- JavaScript `number` values holding 32-bit-int data are modelled as `ℕ` / `ℤ`
  with explicit wrapping (`toInt32`) exactly where JS bitwise operators coerce
  (`<<`, `|`, `Int32Array` stores).  Packed `Int32Array` words are modelled as
  `List ℕ` with every word `< 2^32` (a signed stored word and its unsigned
  `>>>`-view coincide under this encoding).
- JS floats are modelled as `ℚ`; every concrete scenario below uses values that
  binary floating point represents and computes exactly.
- Reads from a typed array at an out-of-range index yield `undefined`, which the
  bitwise operators coerce to `0`; writes at an out-of-range index are ignored.
  The embedding reproduces both (default-`0` reads, no-op writes).
- A thrown `Exception` is modelled as `Except ExceptionType` / `Option`.
-/

/-- JS `ToInt32`: wrap an integer into the signed 32-bit range. -/
def toInt32 (z : ℤ) : ℤ := (z + 2 ^ 31) % 2 ^ 32 - 2 ^ 31

/-- JS `ToInt32` applied to a rational (as `Int32Array.from` does): truncation
toward zero, then 32-bit wrap. -/
def ratToInt32 (q : ℚ) : ℤ := toInt32 (if 0 ≤ q then ⌊q⌋ else -⌊-q⌋)

/-- Value of a little-endian list of bits. -/
def ofBits : List Bool → ℕ
  | [] => 0
  | b :: l => (if b then 1 else 0) + 2 * ofBits l

/-- Bit `k` of a packed word list (32 bits per word, least significant first). -/
def bitAt (ws : List ℕ) (k : ℕ) : Bool := (ws.getD (k / 32) 0).testBit (k % 32)

/-- Exception kinds from `Exception.ts`. -/
inductive ExceptionType where
  | IllegalArgumentException
  | NotFoundException
  deriving DecidableEq, Repr

instance {e a : Type _} [DecidableEq e] [DecidableEq a] : DecidableEq (Except e a) :=
  fun x y => by
    cases x <;> cases y
    case error.error f g => exact decidable_of_iff (f = g) (by simp)
    case ok.ok v w => exact decidable_of_iff (v = w) (by simp)
    all_goals exact isFalse (by simp)

/-! ## BitMatrix (`BitMatrix.ts`) -/

/-- Packed 2D bit matrix: `rowSize` 32-bit words per row, row-major,
least-significant-bit-first within a word. -/
structure BitMatrix where
  width : ℕ
  height : ℕ
  rowSize : ℕ
  bits : List ℕ
  deriving DecidableEq, Repr

/-- The constructor path `new BitMatrix(width, height)` for valid dimensions:
`rowSize = Math.floor((width + 31) / 32)`, all words zero. -/
def zeroMatrix (width height : ℕ) : BitMatrix :=
  ⟨width, height, (width + 31) / 32, List.replicate ((width + 31) / 32 * height) 0⟩

namespace BitMatrix

/-- `get(x, y)`: `(bits[y*rowSize + Math.floor(x/32)] >>> (x & 0x1f)) & 1 !== 0`.
A read at an out-of-range word index yields `undefined`, which `>>>` coerces
to `0`. `Math.floor` on an integer-valued quotient is `Int.fdiv`; `x & 0x1f`
is `x` modulo 32 (`Int.emod`). -/
def get (m : BitMatrix) (x y : ℤ) : Bool :=
  let offset : ℤ := y * m.rowSize + Int.fdiv x 32
  let word : ℕ := if 0 ≤ offset then m.bits.getD offset.toNat 0 else 0
  word.testBit (x.emod 32).toNat

/-- `set(x, y)`: `bits[y*rowSize + Math.floor(x/32)] |= 1 << (x & 0x1f)`.
(Called only with non-negative coordinates; a write at an out-of-range index
is ignored, which `List.set` reproduces.) -/
def set (m : BitMatrix) (x y : ℕ) : BitMatrix :=
  let offset : ℕ := y * m.rowSize + x / 32
  { m with bits := m.bits.set offset (m.bits.getD offset 0 ||| 2 ^ (x % 32)) }

/-- Well-formedness: the invariants the public constructor establishes and all
in-contract operations preserve (§3 of the spec): positive dimensions, derived
`rowSize`, exact backing-store length, 32-bit words, zero padding bits beyond
`width` in every row word. -/
def Wf (m : BitMatrix) : Prop :=
  1 ≤ m.width ∧ 1 ≤ m.height ∧ m.rowSize = (m.width + 31) / 32 ∧
    m.bits.length = m.rowSize * m.height ∧
    (∀ w ∈ m.bits, w < 2 ^ 32) ∧
    (∀ y < m.height, ∀ j < m.rowSize, ∀ b < 32,
      m.width ≤ 32 * j + b → (m.bits.getD (y * m.rowSize + j) 0).testBit b = false)

instance (m : BitMatrix) : Decidable (Wf m) := by
  unfold Wf; infer_instance

/-- The words of row `y` (what `getRow` copies out word-for-word via
`setBulk(x * 32, bits[offset + x])`). -/
def rowWords (m : BitMatrix) (y : ℕ) : List ℕ :=
  (m.bits.drop (y * m.rowSize)).take m.rowSize

/-- `setRow(y, row)`: `System.arraycopy(row, 0, bits, y * rowSize, rowSize)`. -/
def setRowWords (m : BitMatrix) (y : ℕ) (ws : List ℕ) : BitMatrix :=
  { m with
    bits := m.bits.take (y * m.rowSize) ++ ws.take m.rowSize ++
      m.bits.drop (y * m.rowSize + m.rowSize) }

/-- Modelled from the spec: `BitArray.ts` is not part of the given sources.
Per §4.1 a row is "a row-width bit sequence" in the same packed layout
(32-bit words, least-significant-bit-first, §9), and `BitArray.reverse`
produces the bit-reversed sequence: bit `k` of the result is bit
`width - 1 - k` of the input for `k < width`, and padding bits beyond
`width` are zero. -/
def reverseRowWords (width : ℕ) (ws : List ℕ) : List ℕ :=
  (List.range ((width + 31) / 32)).map (fun j =>
    ofBits ((List.range 32).map (fun b =>
      decide (32 * j + b < width) && bitAt ws (width - 1 - (32 * j + b)))))

/-- One iteration of the `rotate180` loop: reverse rows `i` and
`height - 1 - i` and swap them. -/
def rotStep (m : BitMatrix) (i : ℕ) : BitMatrix :=
  let topRow := rowWords m i
  let bottomRow := rowWords m (m.height - 1 - i)
  let m1 := setRowWords m i (reverseRowWords m.width bottomRow)
  setRowWords m1 (m.height - 1 - i) (reverseRowWords m.width topRow)

/-- `rotate180()`: for `i` in `[0, Math.floor((height + 1) / 2))` swap the
bit-reversed rows `i` and `height - 1 - i`. -/
def rotate180 (m : BitMatrix) : BitMatrix :=
  (List.range ((m.height + 1) / 2)).foldl rotStep m

/-- Source loop `while (((theBits << (31 - bit)) & 0xFFFFFFFF) === 0) bit++`:
advance while the low `bit + 1` bits are all zero (the shifted value is taken
modulo `2^32` exactly as the JS 32-bit shift does).  The `bit < 32` bound is
unreachable for a nonzero 32-bit word and only makes the recursion total. -/
def lowBitScanAux (w : ℕ) : ℕ → ℕ → ℕ
  | 0, bit => bit
  | d + 1, bit => if (w <<< (31 - bit)) % 2 ^ 32 = 0 then lowBitScanAux w d (bit + 1) else bit

/-- Entry point of the low-bit scan starting at `bit` (at most `32 - bit`
iterations can happen before the shift distance is exhausted). -/
def lowBitScan (w : ℕ) (bit : ℕ) : ℕ := lowBitScanAux w (32 - bit) bit

/-- Source loop `while ((theBits >>> bit) === 0) bit--`: find the highest set
bit, scanning down from `bit`.  Reaching `bit = 0` with a zero word is
unreachable for the nonzero words this is applied to. -/
def highBitScan (w : ℕ) (bit : ℕ) : ℕ :=
  if w >>> bit = 0 then
    match bit with
    | 0 => 0
    | b + 1 => highBitScan w b
  else bit

/-- State of the `getEnclosingRectangle` scan: `(left, top, right, bottom)`. -/
structure EncState where
  left : ℤ
  top : ℤ
  right : ℤ
  bottom : ℤ
  deriving DecidableEq, Repr

/-- Body of the `getEnclosingRectangle` double loop for word `(y, x32)`. -/
def encStep (m : BitMatrix) (st : EncState) (y x32 : ℕ) : EncState :=
  let theBits := m.bits.getD (y * m.rowSize + x32) 0
  if theBits ≠ 0 then
    let top : ℤ := if (y : ℤ) < st.top then y else st.top
    let bottom : ℤ := if (y : ℤ) > st.bottom then y else st.bottom
    let left : ℤ :=
      if (32 * x32 : ℤ) < st.left then
        let bit := lowBitScan theBits 0
        if (32 * x32 + bit : ℤ) < st.left then (32 * x32 + bit : ℤ) else st.left
      else st.left
    let right : ℤ :=
      if (32 * x32 + 31 : ℤ) > st.right then
        let bit := highBitScan theBits 31
        if (32 * x32 + bit : ℤ) > st.right then (32 * x32 + bit : ℤ) else st.right
      else st.right
    ⟨left, top, right, bottom⟩
  else st

/-- `getEnclosingRectangle()`: scan every row word, tracking the extreme set
bits; `null` when nothing is set, else `Int32Array [left, top, width, height]`
of the enclosing rectangle. -/
def getEnclosingRectangle (m : BitMatrix) : Option (ℤ × ℤ × ℤ × ℤ) :=
  let fin := (List.range m.height).foldl
    (fun st y => (List.range m.rowSize).foldl (fun st x32 => encStep m st y x32) st)
    ⟨(m.width : ℤ), (m.height : ℤ), -1, -1⟩
  if fin.right < fin.left ∨ fin.bottom < fin.top then none
  else some (toInt32 fin.left, toInt32 fin.top,
    toInt32 (fin.right - fin.left + 1), toInt32 (fin.bottom - fin.top + 1))

/-- Index of the first nonzero word (`while (bitsOffset < bits.length &&
bits[bitsOffset] === 0) bitsOffset++`); equals the length when all are zero. -/
def firstNonZero : List ℕ → ℕ
  | [] => 0
  | w :: ws => if w = 0 then firstNonZero ws + 1 else 0

/-- Index of the last nonzero word (`bitsOffset` scanning down from the end);
`none` models the scan running past index 0 (all words zero). -/
def lastNonZero : List ℕ → Option ℕ
  | [] => none
  | w :: ws =>
    match lastNonZero ws with
    | some i => some (i + 1)
    | none => if w ≠ 0 then some 0 else none

/-- `getTopLeftOnBit()`.  Note the source computes `y = bitsOffset / rowSize`
with plain JS division (no `Math.floor`), producing a fractional value when
`rowSize` does not divide `bitsOffset`; the final `Int32Array.from` coerces
each component with `ToInt32`, truncating it back to an integer. -/
def getTopLeftOnBit (m : BitMatrix) : Option (ℤ × ℤ) :=
  let bitsOffset := firstNonZero m.bits
  if bitsOffset = m.bits.length then none
  else
    let y : ℚ := (bitsOffset : ℚ) / (m.rowSize : ℚ)
    let x : ℕ := bitsOffset % m.rowSize * 32 + lowBitScan (m.bits.getD bitsOffset 0) 0
    some (toInt32 x, ratToInt32 y)

/-- `getBottomRightOnBit()` (this one does use `Math.floor` on both
`bitsOffset / rowSize` and `bitsOffset % rowSize`). -/
def getBottomRightOnBit (m : BitMatrix) : Option (ℤ × ℤ) :=
  match lastNonZero m.bits with
  | none => none
  | some bitsOffset =>
    let y : ℕ := bitsOffset / m.rowSize
    let x : ℕ := bitsOffset % m.rowSize * 32 + highBitScan (m.bits.getD bitsOffset 0) 31
    some (toInt32 x, toInt32 y)

/-- `buildToString(setString, unsetString, lineSeparator)`: the builder first
appends the line separator, then for each row appends one token per bit and a
trailing separator. -/
def buildToString (m : BitMatrix) (setString unsetString lineSeparator : List Char) :
    List Char :=
  lineSeparator ++ ((List.range m.height).map (fun (y : ℕ) =>
    ((List.range m.width).map (fun (x : ℕ) =>
      if m.get (x : ℤ) (y : ℤ) then setString else unsetString)).flatten ++
        lineSeparator)).flatten

/-- `toString(setString, unsetString)` with the default `\n` separator. -/
def toStringM (m : BitMatrix) (setString unsetString : List Char) : List Char :=
  buildToString m setString unsetString [('\n')]

end BitMatrix

/-! ## Parsing (`BitMatrix.parseFromString`) -/

/-- Outcome of `parseFromString`: a matrix, an `IllegalArgumentException` with
its message, or divergence (the source loops forever when an empty token
matches, since `pos` stops advancing). -/
inductive POut where
  | ok (m : BitMatrix)
  | argError (msg : String)
  | diverge
  deriving DecidableEq, Repr

/-- The `for (i = 0; i < bitsPos; i++) if (bits[i]) matrix.set(i % rowLength,
Math.floor(i / rowLength))` rebuild loop over a fresh `new BitMatrix(w, h)`. -/
def buildFromBools (bools : List Bool) (w h : ℕ) : BitMatrix :=
  (List.range bools.length).foldl
    (fun m i => if bools.getD i false then m.set (i % w) (i / w) else m)
    (zeroMatrix w h)

/-- End of the `parseFromString` scan: construct `new BitMatrix(rowLength,
nRows)` (which throws when `rowLength` was never set, i.e. is still `-1`) and
replay the recorded bits. -/
def buildParsed (bitsRev : List Bool) (rowLength : Option ℕ) (nRows : ℕ) : POut :=
  match rowLength with
  | none => .argError ("Both dimensions must be greater than 0")
  | some w =>
    if w = 0 ∨ nRows = 0 then .argError ("Both dimensions must be greater than 0")
    else .ok (buildFromBools bitsRev.reverse w nRows)

/-- The "no EOL at end?" epilogue of `parseFromString`, then matrix build. -/
def parseFinish (bitsRev : List Bool) (rowStartPos : ℕ) (rowLength : Option ℕ)
    (nRows : ℕ) : POut :=
  if rowStartPos < bitsRev.length then
    match rowLength with
    | none => buildParsed bitsRev (some (bitsRev.length - rowStartPos)) (nRows + 1)
    | some rl =>
      if bitsRev.length - rowStartPos = rl then buildParsed bitsRev rowLength (nRows + 1)
      else .argError ("row lengths do not match")
  else buildParsed bitsRev rowLength nRows

/-- The `while (pos < stringRepresentation.length)` scan of `parseFromString`.
`bitsRev` holds the recorded bits most-recent-first (so `bitsPos =
bitsRev.length`).  `substring(pos, pos + t.length) === t` is `t.isPrefixOf`.
An empty matching token leaves `pos` unchanged in the source, which loops
forever: modelled as `.diverge`.  The `fuel` argument only makes the
recursion structural; it starts at `rem.length + 1` and every iteration with
a nonempty matched token consumes at least one character, so with nonempty
tokens the `fuel = 0` case is unreachable (an empty matching token hits the
explicit `.diverge` branches first). -/
def parseLoop (s u : List Char) : ℕ → List Char → List Bool → ℕ → Option ℕ → ℕ → POut
  | 0, _, _, _, _, _ => .diverge
  | _ + 1, [], bitsRev, rowStartPos, rowLength, nRows =>
    parseFinish bitsRev rowStartPos rowLength nRows
  | fuel + 1, c :: rest, bitsRev, rowStartPos, rowLength, nRows =>
    if c = '\n' ∨ c = '\r' then
      if rowStartPos < bitsRev.length then
        match rowLength with
        | none =>
          parseLoop s u fuel rest bitsRev bitsRev.length
            (some (bitsRev.length - rowStartPos)) (nRows + 1)
        | some rl =>
          if bitsRev.length - rowStartPos = rl then
            parseLoop s u fuel rest bitsRev bitsRev.length rowLength (nRows + 1)
          else .argError ("row lengths do not match")
      else parseLoop s u fuel rest bitsRev rowStartPos rowLength nRows
    else if s.isPrefixOf (c :: rest) then
      if s = [] then .diverge
      else parseLoop s u fuel ((c :: rest).drop s.length) (true :: bitsRev)
        rowStartPos rowLength nRows
    else if u.isPrefixOf (c :: rest) then
      if u = [] then .diverge
      else parseLoop s u fuel ((c :: rest).drop u.length) (false :: bitsRev)
        rowStartPos rowLength nRows
    else .argError (("illegal character encountered: ").append (String.mk (c :: rest)))

/-- `BitMatrix.parseFromString(stringRepresentation, setString, unsetString)`. -/
def parseFromString (rep s u : List Char) : POut :=
  parseLoop s u (rep.length + 1) rep [] 0 none 0

/-! ## PerspectiveTransform (`BitMatrix.ts`, second class) -/

/-- A 3x3 projective transform; coefficients as in the source constructor
order `(a11, a21, a31, a12, a22, a32, a13, a23, a33)`. -/
structure PerspectiveTransform where
  a11 : ℚ
  a21 : ℚ
  a31 : ℚ
  a12 : ℚ
  a22 : ℚ
  a32 : ℚ
  a13 : ℚ
  a23 : ℚ
  a33 : ℚ
  deriving DecidableEq, Repr

namespace PerspectiveTransform

/-- `squareToQuadrilateral(x0, y0, x1, y1, x2, y2, x3, y3)`. -/
def squareToQuadrilateral (x0 y0 x1 y1 x2 y2 x3 y3 : ℚ) : PerspectiveTransform :=
  let dx3 := x0 - x1 + x2 - x3
  let dy3 := y0 - y1 + y2 - y3
  if dx3 = 0 ∧ dy3 = 0 then
    ⟨x1 - x0, x2 - x1, x0, y1 - y0, y2 - y1, y0, 0, 0, 1⟩
  else
    let dx1 := x1 - x2
    let dx2 := x3 - x2
    let dy1 := y1 - y2
    let dy2 := y3 - y2
    let denominator := dx1 * dy2 - dx2 * dy1
    let a13 := (dx3 * dy2 - dx2 * dy3) / denominator
    let a23 := (dx1 * dy3 - dx3 * dy1) / denominator
    ⟨x1 - x0 + a13 * x1, x3 - x0 + a23 * x3, x0,
      y1 - y0 + a13 * y1, y3 - y0 + a23 * y3, y0,
      a13, a23, 1⟩

/-- `buildAdjoint()`: transpose of the cofactor matrix. -/
def buildAdjoint (t : PerspectiveTransform) : PerspectiveTransform :=
  ⟨t.a22 * t.a33 - t.a23 * t.a32,
    t.a23 * t.a31 - t.a21 * t.a33,
    t.a21 * t.a32 - t.a22 * t.a31,
    t.a13 * t.a32 - t.a12 * t.a33,
    t.a11 * t.a33 - t.a13 * t.a31,
    t.a12 * t.a31 - t.a11 * t.a32,
    t.a12 * t.a23 - t.a13 * t.a22,
    t.a13 * t.a21 - t.a11 * t.a23,
    t.a11 * t.a22 - t.a12 * t.a21⟩

/-- `times(other)`: matrix product. -/
def times (t other : PerspectiveTransform) : PerspectiveTransform :=
  ⟨t.a11 * other.a11 + t.a21 * other.a12 + t.a31 * other.a13,
    t.a11 * other.a21 + t.a21 * other.a22 + t.a31 * other.a23,
    t.a11 * other.a31 + t.a21 * other.a32 + t.a31 * other.a33,
    t.a12 * other.a11 + t.a22 * other.a12 + t.a32 * other.a13,
    t.a12 * other.a21 + t.a22 * other.a22 + t.a32 * other.a23,
    t.a12 * other.a31 + t.a22 * other.a32 + t.a32 * other.a33,
    t.a13 * other.a11 + t.a23 * other.a12 + t.a33 * other.a13,
    t.a13 * other.a21 + t.a23 * other.a22 + t.a33 * other.a23,
    t.a13 * other.a31 + t.a23 * other.a32 + t.a33 * other.a33⟩

/-- `quadrilateralToSquare`: adjoint of `squareToQuadrilateral`. -/
def quadrilateralToSquare (x0 y0 x1 y1 x2 y2 x3 y3 : ℚ) : PerspectiveTransform :=
  (squareToQuadrilateral x0 y0 x1 y1 x2 y2 x3 y3).buildAdjoint

/-- `quadrilateralToQuadrilateral`: `sToQ.times(qToS)`. -/
def quadrilateralToQuadrilateral (x0 y0 x1 y1 x2 y2 x3 y3
    x0p y0p x1p y1p x2p y2p x3p y3p : ℚ) : PerspectiveTransform :=
  let qToS := quadrilateralToSquare x0 y0 x1 y1 x2 y2 x3 y3
  let sToQ := squareToQuadrilateral x0p y0p x1p y1p x2p y2p x3p y3p
  sToQ.times qToS

/-- `transformPoints(points)`: the flat interleaved `(x0, y0, x1, y1, ...)`
buffer is modelled as a list of pairs; each point is mapped through the
homogeneous transform with per-point denominator. -/
def transformPoints (t : PerspectiveTransform) (ps : List (ℚ × ℚ)) : List (ℚ × ℚ) :=
  ps.map (fun p =>
    let denominator := t.a13 * p.1 + t.a23 * p.2 + t.a33
    ((t.a11 * p.1 + t.a21 * p.2 + t.a31) / denominator,
      (t.a12 * p.1 + t.a22 * p.2 + t.a32) / denominator))

end PerspectiveTransform

/-! ## GridSampler (`GridSampler.ts`, `DefaultGridSampler.ts`) -/

/-- The per-point body of both `checkAndNudgePoints` loops: fail when the
floored point is more than one unit outside the image, else clamp an
exactly-one-outside coordinate onto the nearest edge; reports whether a nudge
happened. -/
def nudgeOne (width height : ℤ) (p : ℚ × ℚ) : Option ((ℚ × ℚ) × Bool) :=
  let x := ⌊p.1⌋
  let y := ⌊p.2⌋
  if x < -1 ∨ x > width ∨ y < -1 ∨ y > height then none
  else
    let px : ℚ × Bool :=
      if x = -1 then (0, true)
      else if x = width then (((width - 1 : ℤ) : ℚ), true)
      else (p.1, false)
    let py : ℚ × Bool :=
      if y = -1 then (0, true)
      else if y = height then (((height - 1 : ℤ) : ℚ), true)
      else (p.2, false)
    some ((px.1, py.1), px.2 || py.2)

/-- One directional scan of `checkAndNudgePoints`: points are checked from the
front while the previous point was nudged (`nudged` starts `true`, so the
first point is always checked); the remaining points are left untouched. -/
def scanPoints (width height : ℤ) : List (ℚ × ℚ) → Option (List (ℚ × ℚ))
  | [] => some []
  | p :: rest =>
    match nudgeOne width height p with
    | none => none
    | some (p2, nudged) =>
      if nudged then (scanPoints width height rest).map (fun r => p2 :: r)
      else some (p2 :: rest)

/-- `GridSampler.checkAndNudgePoints(image, points)`: scan from the start,
then (on the updated buffer) from the end — the latter is the front scan of
the reversed list. -/
def checkAndNudgePoints (image : BitMatrix) (points : List (ℚ × ℚ)) :
    Option (List (ℚ × ℚ)) :=
  (scanPoints image.width image.height points).bind
    (fun ps => (scanPoints image.width image.height ps.reverse).map List.reverse)

/-- The per-row sampling pass of `sampleGridWithTransform`: for each
transformed point, test the image bit at its floored coordinates and set the
output bit.  The source wraps this loop in a `try/catch` converting an
`ArrayIndexOutOfBoundsException` to `NotFoundException`, but in this code
`image.get` never throws — a typed-array read at an out-of-range index yields
`undefined` and the bit expression coerces it to `false` — so the catch block
is unreachable and the loop is total. -/
def sampleRow (image : BitMatrix) (bits : BitMatrix) (y : ℕ) (ps : List (ℚ × ℚ)) :
    BitMatrix :=
  (List.range ps.length).foldl
    (fun b x =>
      let p := ps.getD x (0, 0)
      if image.get ⌊p.1⌋ ⌊p.2⌋ then b.set x y else b)
    bits

/-- `DefaultGridSampler.sampleGridWithTransform(image, dimensionX, dimensionY,
transform)`. -/
def sampleGridWithTransform (image : BitMatrix) (dimensionX dimensionY : ℤ)
    (transform : PerspectiveTransform) : Except ExceptionType BitMatrix :=
  if dimensionX ≤ 0 ∨ dimensionY ≤ 0 then .error .NotFoundException
  else
    (List.range dimensionY.toNat).foldlM
      (fun (bits : BitMatrix) (y : ℕ) =>
        let points := (List.range dimensionX.toNat).map
          (fun x => ((x : ℚ) + 1 / 2, (y : ℚ) + 1 / 2))
        match checkAndNudgePoints image (transform.transformPoints points) with
        | none => Except.error ExceptionType.NotFoundException
        | some ps => Except.ok (sampleRow image bits y ps))
      (zeroMatrix dimensionX.toNat dimensionY.toNat)

/-- `DefaultGridSampler.sampleGrid(image, dimensionX, dimensionY, p1ToX, ...,
p4FromY)`: build the quad-to-quad transform, then sample with it. -/
def sampleGrid (image : BitMatrix) (dimensionX dimensionY : ℤ)
    (p1ToX p1ToY p2ToX p2ToY p3ToX p3ToY p4ToX p4ToY
      p1FromX p1FromY p2FromX p2FromY p3FromX p3FromY p4FromX p4FromY : ℚ) :
    Except ExceptionType BitMatrix :=
  let transform := PerspectiveTransform.quadrilateralToQuadrilateral
    p1ToX p1ToY p2ToX p2ToY p3ToX p3ToY p4ToX p4ToY
    p1FromX p1FromY p2FromX p2FromY p3FromX p3FromY p4FromX p4FromY
  sampleGridWithTransform image dimensionX dimensionY transform

/-! ## BitSource (`BitSource.ts`) -/

/-- Cursor over a byte buffer (`Uint8Array`, entries in `[0, 256)`). -/
structure BitSource where
  bytes : List ℕ
  byteOffset : ℕ
  bitOffset : ℕ
  deriving DecidableEq, Repr

/-- The `BitSource` constructor: both offsets start at zero. -/
def mkBitSource (bytes : List ℕ) : BitSource := ⟨bytes, 0, 0⟩

/-- `available()`: `8 * (bytes.length - byteOffset) - bitOffset`. -/
def available (s : BitSource) : ℤ :=
  8 * ((s.bytes.length : ℤ) - s.byteOffset) - s.bitOffset

/-- The `while (numBits >= 8)` loop of `readBits`: shift in one whole byte at
a time.  `(result << 8) | b` with the low 8 bits of the shifted value zero is
`toInt32 (result * 256) + b`. -/
def readWholeBytes (bytes : List ℕ) : ℤ → ℕ → ℕ → ℤ × ℕ × ℕ
  | result, B, n + 8 =>
    readWholeBytes bytes (toInt32 (result * 256) + ((bytes.getD B 0 &&& 0xFF : ℕ) : ℤ))
      (B + 1) n
  | result, B, n => (result, B, n)

/-- The tail of `readBits` after the first partial byte: whole bytes, then a
final partial byte; returns the result and the updated cursor. -/
def readRest (bytes : List ℕ) (result : ℤ) (B b n : ℕ) : ℤ × BitSource :=
  if 0 < n then
    let r1 := readWholeBytes bytes result B n
    if 0 < r1.2.2 then
      let bitsToNotRead := 8 - r1.2.2
      let mask := (0xFF >>> bitsToNotRead) <<< bitsToNotRead
      (toInt32 (r1.1 * 2 ^ r1.2.2) +
          (((bytes.getD r1.2.1 0 &&& mask) >>> bitsToNotRead : ℕ) : ℤ),
        ⟨bytes, r1.2.1, b + r1.2.2⟩)
    else (r1.1, ⟨bytes, r1.2.1, b⟩)
  else (result, ⟨bytes, B, b⟩)

/-- `readBits(numBits)`: guard, then read the remainder of the current byte,
then whole bytes, then a final partial byte. -/
def readBits (src : BitSource) (numBits : ℤ) : Except ExceptionType (ℤ × BitSource) :=
  if numBits < 1 ∨ 32 < numBits ∨ available src < numBits then
    .error .IllegalArgumentException
  else
    let n0 := numBits.toNat
    if 0 < src.bitOffset then
      let bitsLeft := 8 - src.bitOffset
      let toRead := min n0 bitsLeft
      let bitsToNotRead := bitsLeft - toRead
      let mask := (0xFF >>> (8 - toRead)) <<< bitsToNotRead
      let r0 : ℤ := ((src.bytes.getD src.byteOffset 0 &&& mask) >>> bitsToNotRead : ℕ)
      if src.bitOffset + toRead = 8 then
        .ok (readRest src.bytes r0 (src.byteOffset + 1) 0 (n0 - toRead))
      else
        .ok (readRest src.bytes r0 src.byteOffset (src.bitOffset + toRead) (n0 - toRead))
    else .ok (readRest src.bytes 0 src.byteOffset src.bitOffset n0)

/-- The cursor invariant of §3: `0 ≤ bitOffset < 8` and
`available() = 8 * (len - byteOffset) - bitOffset ≥ 0`. -/
def BitSourceInv (s : BitSource) : Prop :=
  s.bitOffset < 8 ∧ 0 ≤ available s

instance (s : BitSource) : Decidable (BitSourceInv s) := by
  unfold BitSourceInv; infer_instance

/-- Well-formedness of a packed row of a `width`-column matrix: `rowSize`
words, 32-bit words, padding bits beyond `width` all zero. -/
def RowWf (width : ℕ) (ws : List ℕ) : Prop :=
  ws.length = (width + 31) / 32 ∧ (∀ v ∈ ws, v < 2 ^ 32) ∧
    ∀ j, ∀ b < 32, width ≤ 32 * j + b → (ws.getD j 0).testBit b = false

/-- A hypothesis bundle for round-trip token pairs: mutually prefix-free and
neither begins with a line-break character. -/
def GoodTokens (s u : List Char) : Prop :=
  ¬ s <+: u ∧ ¬ u <+: s ∧
    (∀ c, s.head? = some c → ¬(c = '\n' ∨ c = '\r')) ∧
    (∀ c, u.head? = some c → ¬(c = '\n' ∨ c = '\r'))

/-- Token encoding of one row of bits (what `buildToString` emits per row,
without the separator). -/
def encRow (s u : List Char) (row : List Bool) : List Char :=
  (row.map (fun b => if b then s else u)).flatten

/-- Token encoding of a list of rows, each followed by the `\n` separator. -/
def encRows (s u : List Char) (rows : List (List Bool)) : List Char :=
  (rows.map (fun r => encRow s u r ++ [('\n')])).flatten

/-- The boolean grid of a matrix, row-major (row `y` is
`[get 0 y, ..., get (width-1) y]`). -/
def rowsOf (m : BitMatrix) : List (List Bool) :=
  (List.range m.height).map (fun (y : ℕ) =>
    (List.range m.width).map (fun (x : ℕ) => m.get (x : ℤ) (y : ℤ)))

/-- The first `n` iterations of the `parseFromString` replay loop
`if (bits[i]) matrix.set(i % rowLength, i / rowLength)`. -/
def buildFold (bools : List Bool) (w h n : ℕ) : BitMatrix :=
  (List.range n).foldl
    (fun m i => if bools.getD i false then m.set (i % w) (i / w) else m)
    (zeroMatrix w h)

/-! ## Helper lemmas -/

theorem readWholeBytes_snd (bytes : List ℕ) (r : ℤ) (B n : ℕ) :
    (readWholeBytes bytes r B n).2 = (B + n / 8, n % 8) := by
  induction n using Nat.strong_induction_on generalizing r B with
  | _ n ih =>
    by_cases h8 : 8 ≤ n
    · obtain ⟨n', rfl⟩ : ∃ n', n = n' + 8 := ⟨n - 8, by omega⟩
      show (readWholeBytes bytes _ (B + 1) n').2 = _
      rw [ih n' (by omega)]
      simp only [Prod.mk.injEq]
      omega
    · interval_cases n <;> simp [readWholeBytes]

theorem readRest_snd (bytes : List ℕ) (r : ℤ) (B b n : ℕ) :
    (readRest bytes r B b n).2 =
      if 0 < n then
        if 0 < n % 8 then (⟨bytes, B + n / 8, b + n % 8⟩ : BitSource)
        else ⟨bytes, B + n / 8, b⟩
      else ⟨bytes, B, b⟩ := by
  simp only [readRest, readWholeBytes_snd]
  rcases Nat.lt_or_ge 0 n with h | h
  · rw [if_pos h, if_pos h]
    by_cases h2 : 0 < n % 8
    · rw [if_pos h2, if_pos h2]
    · rw [if_neg h2, if_neg h2]
  · rw [if_neg (by omega), if_neg (by omega)]

/-! ## Claim C9 -/

/-- C9: when `dx3 = x0 - x1 + x2 - x3` and `dy3 = y0 - y1 + y2 - y3` are both
exactly zero, `squareToQuadrilateral` returns the affine transform with
`a13 = 0`, `a23 = 0`, `a33 = 1` and the remaining six coefficients built from
the edge vectors (`a11 = x1 - x0`, `a21 = x2 - x1`, `a31 = x0`,
`a12 = y1 - y0`, `a22 = y2 - y1`, `a32 = y0`). -/
theorem squareToQuadrilateral_affine (x0 y0 x1 y1 x2 y2 x3 y3 : ℚ)
    (hx : x0 - x1 + x2 - x3 = 0) (hy : y0 - y1 + y2 - y3 = 0) :
    PerspectiveTransform.squareToQuadrilateral x0 y0 x1 y1 x2 y2 x3 y3 =
      ⟨x1 - x0, x2 - x1, x0, y1 - y0, y2 - y1, y0, 0, 0, 1⟩ := by
  unfold PerspectiveTransform.squareToQuadrilateral
  rw [if_pos ⟨hx, hy⟩]

/-- Witness for C9 at the unit square itself. -/
theorem squareToQuadrilateral_affine_witness :
    (0 : ℚ) - 1 + 1 - 0 = 0 ∧ (0 : ℚ) - 0 + 1 - 1 = 0 ∧
      PerspectiveTransform.squareToQuadrilateral 0 0 1 0 1 1 0 1 =
        ⟨1, 0, 0, 0, 1, 0, 0, 0, 1⟩ :=
  ⟨by norm_num, by norm_num, by
    rw [squareToQuadrilateral_affine 0 0 1 0 1 1 0 1 (by norm_num) (by norm_num)]
    norm_num [PerspectiveTransform.mk.injEq]⟩

/-! ## Claim C1 -/

/-- C1 counterexample: with `dimensionX = 0` the sampler fails with
`NotFoundException`, which is not the invalid-argument
(`IllegalArgumentException`) kind the claim asserts. -/
theorem sampleGrid_nonpositive_counterexample :
    sampleGridWithTransform (zeroMatrix 1 1) 0 1 ⟨1, 0, 0, 0, 1, 0, 0, 0, 1⟩ =
        .error .NotFoundException ∧
      ExceptionType.NotFoundException ≠ ExceptionType.IllegalArgumentException := by
  constructor
  · rfl
  · decide

/-- C1 (amended): `sampleGridWithTransform` (and hence `sampleGrid`) with
`dimensionX ≤ 0` or `dimensionY ≤ 0` fails with a not-found
(`NotFoundException`) error — not with an invalid-argument error. -/
theorem sampleGrid_nonpositive_notFound (image : BitMatrix)
    (dimensionX dimensionY : ℤ) (transform : PerspectiveTransform)
    (p1ToX p1ToY p2ToX p2ToY p3ToX p3ToY p4ToX p4ToY
      p1FromX p1FromY p2FromX p2FromY p3FromX p3FromY p4FromX p4FromY : ℚ)
    (h : dimensionX ≤ 0 ∨ dimensionY ≤ 0) :
    sampleGridWithTransform image dimensionX dimensionY transform =
        .error .NotFoundException ∧
      sampleGrid image dimensionX dimensionY
          p1ToX p1ToY p2ToX p2ToY p3ToX p3ToY p4ToX p4ToY
          p1FromX p1FromY p2FromX p2FromY p3FromX p3FromY p4FromX p4FromY =
        .error .NotFoundException := by
  constructor
  · unfold sampleGridWithTransform
    rw [if_pos h]
  · unfold sampleGrid sampleGridWithTransform
    rw [if_pos h]

/-- Witness for the amended C1. -/
theorem sampleGrid_nonpositive_notFound_witness :
    ((0 : ℤ) ≤ 0 ∨ (1 : ℤ) ≤ 0) ∧
      sampleGridWithTransform (zeroMatrix 2 2) 0 1 ⟨1, 0, 0, 0, 1, 0, 0, 0, 1⟩ =
        .error .NotFoundException :=
  ⟨Or.inl le_rfl,
    (sampleGrid_nonpositive_notFound (zeroMatrix 2 2) 0 1 ⟨1, 0, 0, 0, 1, 0, 0, 0, 1⟩
      0 0 0 0 0 0 0 0 0 0 0 0 0 0 0 0 (Or.inl le_rfl)).1⟩

/-! ## Claim C4 -/

/-- C4: over the buffer `[0xB4, 0x3A]`, `readBits(4)` returns 11,
`readBits(8)` then returns 67, `available()` then returns 4, and `readBits(5)`
then fails with an invalid-argument (`IllegalArgumentException`) error. -/
theorem bitSource_scenario :
    readBits (mkBitSource [0xB4, 0x3A]) 4 = .ok (11, ⟨[0xB4, 0x3A], 0, 4⟩) ∧
      readBits ⟨[0xB4, 0x3A], 0, 4⟩ 8 = .ok (67, ⟨[0xB4, 0x3A], 1, 4⟩) ∧
      available ⟨[0xB4, 0x3A], 1, 4⟩ = 4 ∧
      readBits ⟨[0xB4, 0x3A], 1, 4⟩ 5 = .error .IllegalArgumentException := by
  refine ⟨by decide, by decide, by decide, by decide⟩

/-! ## Claim C10 -/

/-- C10: `BitMatrix.get` is total — whenever the packed word index
`y * rowSize + Math.floor(x / 32)` falls outside the backing array, the read
yields `undefined`, coerced to 0, and `get` returns `false` instead of
faulting.  In particular (second part), in any matrix whose backing store has
the constructed length `rowSize * height`, every `y ≥ height` with `x ≥ 0` is
such an index. -/
theorem get_out_of_range_false :
    (∀ (m : BitMatrix) (x y : ℤ),
      (y * m.rowSize + Int.fdiv x 32 < 0 ∨
        (m.bits.length : ℤ) ≤ y * m.rowSize + Int.fdiv x 32) →
      m.get x y = false) ∧
    ∀ (m : BitMatrix) (x y : ℤ), m.bits.length = m.rowSize * m.height →
      0 ≤ x → (m.height : ℤ) ≤ y → m.get x y = false := by
  have main : ∀ (m : BitMatrix) (x y : ℤ),
      (y * m.rowSize + Int.fdiv x 32 < 0 ∨
        (m.bits.length : ℤ) ≤ y * m.rowSize + Int.fdiv x 32) →
      m.get x y = false := by
    intro m x y h
    simp only [BitMatrix.get]
    rcases h with h | h
    · rw [if_neg (by omega)]
      exact Nat.zero_testBit _
    · rw [if_pos (by omega)]
      rw [List.getD_eq_default _ _ (by omega)]
      exact Nat.zero_testBit _
  refine ⟨main, fun m x y hlen hx hy => main m x y (Or.inr ?_)⟩
  have hfd : 0 ≤ Int.fdiv x 32 := Int.fdiv_nonneg hx (by norm_num)
  have hmul : (m.height : ℤ) * m.rowSize ≤ y * m.rowSize :=
    mul_le_mul_of_nonneg_right hy (by positivity)
  rw [hlen]
  push_cast
  nlinarith

/-- Witness for C10: a 1×1 matrix read at `y = 1` (word index 1, array length
1) returns `false`. -/
theorem get_out_of_range_false_witness :
    ((((zeroMatrix 1 1).bits.length : ℤ) ≤ 1 * (zeroMatrix 1 1).rowSize + Int.fdiv 0 32) ∧
      (zeroMatrix 1 1).get 0 1 = false) :=
  ⟨by decide, get_out_of_range_false.1 (zeroMatrix 1 1) 0 1 (Or.inr (by decide))⟩

/-! ## Claim C5 -/

/-- C5: the cursor invariant `0 ≤ bitOffset < 8` and
`available() = 8*(len - byteOffset) - bitOffset ≥ 0` holds of a fresh
`BitSource` and is preserved by every successful `readBits` call, and
`byteOffset` never decreases; by induction it therefore holds after each call
of any sequence of successful `readBits` calls. -/
theorem readBits_invariant :
    (∀ bytes, BitSourceInv (mkBitSource bytes)) ∧
    ∀ (s : BitSource) (n r : ℤ) (s' : BitSource),
      BitSourceInv s → readBits s n = .ok (r, s') →
      BitSourceInv s' ∧ s.byteOffset ≤ s'.byteOffset := by
  constructor
  · intro bytes
    constructor
    · show (0 : ℕ) < 8
      decide
    · show (0 : ℤ) ≤ 8 * ((bytes.length : ℤ) - 0) - 0
      simp
  · intro s n r s' hInv hRead
    obtain ⟨hb8, hav⟩ := hInv
    unfold readBits at hRead
    rw [available] at hav
    split at hRead
    · exact absurd hRead (by simp)
    · next hguard =>
      rw [available] at hguard
      push_neg at hguard
      obtain ⟨h1, h32, hn⟩ := hguard
      have hn0 : (n.toNat : ℤ) = n := Int.toNat_of_nonneg (by omega)
      dsimp only at hRead
      split at hRead
      · next hbo =>
        split at hRead
        · next heq8 =>
          have hs' : s' =
              (readRest s.bytes _ (s.byteOffset + 1) 0
                (n.toNat - min n.toNat (8 - s.bitOffset))).2 :=
            (congrArg Prod.snd (Except.ok.inj hRead)).symm
          rw [readRest_snd] at hs'
          subst hs'
          refine ⟨⟨?_, ?_⟩, ?_⟩ <;>
            · split
              · split <;> (simp [available]; try omega)
              · simp [available]
                try omega
        · next hne8 =>
          have hs' : s' =
              (readRest s.bytes _ s.byteOffset
                (s.bitOffset + min n.toNat (8 - s.bitOffset))
                (n.toNat - min n.toNat (8 - s.bitOffset))).2 :=
            (congrArg Prod.snd (Except.ok.inj hRead)).symm
          rw [readRest_snd] at hs'
          subst hs'
          refine ⟨⟨?_, ?_⟩, ?_⟩ <;>
            · split
              · split <;> (simp [available]; try omega)
              · simp [available]
                try omega
      · next hbo =>
        have hs' : s' = (readRest s.bytes 0 s.byteOffset s.bitOffset n.toNat).2 :=
          (congrArg Prod.snd (Except.ok.inj hRead)).symm
        rw [readRest_snd] at hs'
        subst hs'
        refine ⟨⟨?_, ?_⟩, ?_⟩ <;>
          · split
            · split <;> (simp [available]; try omega)
            · simp [available]
              try omega

/-- Witness for C5: reading 3 bits from a fresh one-byte source preserves the
invariant. -/
theorem readBits_invariant_witness :
    BitSourceInv (mkBitSource [0xB4]) ∧
      BitSourceInv ⟨[0xB4], 0, 3⟩ ∧ (0 : ℕ) ≤ (0 : ℕ) :=
  ⟨by decide,
    (readBits_invariant.2 (mkBitSource [0xB4]) 3 5 ⟨[0xB4], 0, 3⟩ (by decide) (by decide)).1,
    (readBits_invariant.2 (mkBitSource [0xB4]) 3 5 ⟨[0xB4], 0, 3⟩ (by decide) (by decide)).2⟩

/-! ## Claim C3 -/

/-- C3 counterexample: on a 10×10 image, the batch
`[(0.5, 0.5), (-0.5, 0.5), (0.5, 0.5)]` has its middle point exactly one unit
outside (`⌊-0.5⌋ = -1`), yet `checkAndNudgePoints` succeeds without clamping
it: both endpoint scans stop at the first in-bounds point, so the middle point
is returned unchanged at `-0.5` instead of being nudged onto the edge `0`. -/
theorem checkAndNudgePoints_midpoint_counterexample :
    checkAndNudgePoints (zeroMatrix 10 10)
        [(1/2, 1/2), (-1/2, 1/2), (1/2, 1/2)] =
      some [(1/2, 1/2), (-1/2, 1/2), (1/2, 1/2)] ∧
    ⌊(-1/2 : ℚ)⌋ = -1 ∧ (-1/2 : ℚ) ≠ 0 := by
  refine ⟨?_, by norm_num, by norm_num⟩
  norm_num [checkAndNudgePoints, scanPoints, nudgeOne, zeroMatrix]

/-- C3 (amended): the per-point check of `checkAndNudgePoints` clamps a
point lying exactly one unit outside `[0,width]×[0,height]` (floored
coordinate `-1`, `width`, or `height`) onto the nearest valid edge and marks
it nudged, and fails with the not-found outcome when a point lies more than
one unit outside; this applies to the points the two endpoint scans examine
(each scan stops at the first point needing no nudge, so interior points past
the stops are left unexamined).  In particular, on a 10×10 image a corner
batch starting at `(-0.9, -0.9)` succeeds with that point nudged to `(0, 0)`,
and one starting at `(-1.1, -1.1)` fails with the not-found outcome. -/
theorem checkAndNudgePoints_policy :
    (∀ (width height : ℤ) (p q : ℚ × ℚ) (nudged : Bool), 0 ≤ width → 0 ≤ height →
      nudgeOne width height p = some (q, nudged) →
        (⌊p.1⌋ = -1 → q.1 = 0) ∧ (⌊p.1⌋ = width → q.1 = ((width - 1 : ℤ) : ℚ)) ∧
        (⌊p.2⌋ = -1 → q.2 = 0) ∧ (⌊p.2⌋ = height → q.2 = ((height - 1 : ℤ) : ℚ)) ∧
        ((⌊p.1⌋ = -1 ∨ ⌊p.1⌋ = width ∨ ⌊p.2⌋ = -1 ∨ ⌊p.2⌋ = height) → nudged = true)) ∧
    (∀ (width height : ℤ) (p : ℚ × ℚ),
      (⌊p.1⌋ < -1 ∨ width < ⌊p.1⌋ ∨ ⌊p.2⌋ < -1 ∨ height < ⌊p.2⌋) →
      nudgeOne width height p = none) ∧
    checkAndNudgePoints (zeroMatrix 10 10) [(-9/10, -9/10), (5, 5)] =
      some [(0, 0), (5, 5)] ∧
    checkAndNudgePoints (zeroMatrix 10 10) [(-11/10, -11/10), (5, 5)] = none := by
  refine ⟨?_, ?_,
    by norm_num [checkAndNudgePoints, scanPoints, nudgeOne, zeroMatrix],
    by norm_num [checkAndNudgePoints, scanPoints, nudgeOne, zeroMatrix]⟩
  · intro width height p q nudged hw hh h
    unfold nudgeOne at h
    dsimp only at h
    split at h
    · exact absurd h (by simp)
    · next hin =>
      push_neg at hin
      simp only [Option.some.injEq, Prod.mk.injEq] at h
      obtain ⟨hq, hn⟩ := h
      subst hq
      refine ⟨?_, ?_, ?_, ?_, ?_⟩
      · intro hx
        simp [hx]
      · intro hx
        have hne : ⌊p.1⌋ ≠ -1 := by omega
        simp [hne, hx, show width ≠ -1 by omega]
      · intro hy
        simp [hy]
      · intro hy
        have hne : ⌊p.2⌋ ≠ -1 := by omega
        simp [hne, hy, show height ≠ -1 by omega]
      · intro hcase
        rw [← hn]
        rcases hcase with hx | hx | hy | hy
        · simp [hx]
        · have hne : ⌊p.1⌋ ≠ -1 := by omega
          simp [hne, hx, show width ≠ -1 by omega]
        · simp [hy]
        · have hne : ⌊p.2⌋ ≠ -1 := by omega
          simp [hne, hy, show height ≠ -1 by omega]
  · intro width height p h
    unfold nudgeOne
    rw [if_pos (by omega)]

/-- Witness for the amended C3: the per-point check at `(-0.9, -0.9)` on a
10×10 image clamps the x-coordinate to `0`, and at `(-1.5, 0.5)` it fails. -/
theorem checkAndNudgePoints_policy_witness :
    (nudgeOne 10 10 (-9/10, -9/10) = some ((0, 0), true)) ∧
      ((0 : ℚ), (0 : ℚ)).1 = 0 ∧
      (⌊((-3/2 : ℚ), (1/2 : ℚ)).1⌋ < -1 ∨ (10 : ℤ) < ⌊((-3/2 : ℚ), (1/2 : ℚ)).1⌋ ∨
        ⌊((-3/2 : ℚ), (1/2 : ℚ)).2⌋ < -1 ∨ (10 : ℤ) < ⌊((-3/2 : ℚ), (1/2 : ℚ)).2⌋) ∧
      nudgeOne 10 10 (-3/2, 1/2) = none :=
  ⟨by norm_num [nudgeOne],
    (checkAndNudgePoints_policy.1 10 10 (-9/10, -9/10) (0, 0) true (by norm_num)
      (by norm_num) (by norm_num [nudgeOne])).1 (by norm_num),
    Or.inl (by norm_num),
    checkAndNudgePoints_policy.2.1 10 10 (-3/2, 1/2) (Or.inl (by norm_num))⟩

/-! ## Claim C2 -/

/-- C2 (code bug evidence): with the transform
`(x, y) ↦ ((x - 1.25)/(x - 2), (x - 2)/(x - 2))` over a 4×4 all-white image
and a 3×1 output grid, the middle sample point `(1.5, 0.5)` maps to
`(-0.5, 1)`, whose floored x-coordinate `-1` is outside the image, while both
endpoint samples land in bounds — so `checkAndNudgePoints` passes.  The
per-point pass then reads `image.get(-1, 1)` — in this TypeScript code an
out-of-range typed-array lookup silently yields a value instead of throwing —
and the whole call SUCCEEDS, returning a 3×1 matrix, instead of failing with
the not-found error the claim (and the source's own dead `catch (aioobe)`
block, inherited from Java) promises. -/
theorem samplePass_out_of_bounds_succeeds :
    PerspectiveTransform.transformPoints ⟨1, 0, -5/4, 1, 0, -2, 1, 0, -2⟩
        [(1/2 + 1, 1/2)] = [(-1/2, 1)] ∧
      ⌊(-1/2 : ℚ)⌋ = -1 ∧
      ((-1 : ℤ) < 0 ∨ ((zeroMatrix 4 4).width : ℤ) ≤ -1) ∧
      sampleGridWithTransform (zeroMatrix 4 4) 3 1 ⟨1, 0, -5/4, 1, 0, -2, 1, 0, -2⟩ =
        .ok (zeroMatrix 3 1) := by
  refine ⟨by norm_num [PerspectiveTransform.transformPoints], by norm_num,
    Or.inl (by norm_num), ?_⟩
  norm_num [sampleGridWithTransform, PerspectiveTransform.transformPoints,
    checkAndNudgePoints, scanPoints, nudgeOne, zeroMatrix, sampleRow, BitMatrix.get,
    List.range_succ]
  decide

/-! ## Helper lemmas for the bounding-box queries (C6) -/

theorem toInt32_eq_self (z : ℤ) (h1 : -2 ^ 31 ≤ z) (h2 : z < 2 ^ 31) : toInt32 z = z := by
  unfold toInt32
  omega

theorem getD_zero_of_allZero (L : List ℕ) (i : ℕ) (h : ∀ w ∈ L, w = 0) :
    L.getD i 0 = 0 := by
  induction L generalizing i with
  | nil => simp
  | cons a l ih =>
    cases i with
    | zero => simpa using h a (by simp)
    | succ j => simpa using ih j (fun w hw => h w (by simp [hw]))

theorem getD_set_single (L : List ℕ) (o v i : ℕ) :
    (L.set o v).getD i 0 = if i = o ∧ o < L.length then v else L.getD i 0 := by
  induction L generalizing o i with
  | nil => simp
  | cons a l ih =>
    cases o with
    | zero =>
      cases i with
      | zero => simp
      | succ j => simp
    | succ o' =>
      cases i with
      | zero => simp
      | succ j =>
        simp only [List.set_cons_succ, List.getD_cons_succ, ih, List.length_cons]
        have hiff : (j = o' ∧ o' < l.length) ↔ (j + 1 = o' + 1 ∧ o' + 1 < l.length + 1) := by
          omega
        rw [if_congr hiff rfl rfl]

theorem getD_replicate_zero (n i : ℕ) : (List.replicate n (0 : ℕ)).getD i 0 = 0 :=
  getD_zero_of_allZero _ _ (by simp)

theorem set_replicate_eq_append (n o v : ℕ) (h : o < n) :
    (List.replicate n (0 : ℕ)).set o v =
      List.replicate o 0 ++ v :: List.replicate (n - o - 1) 0 := by
  induction o generalizing n with
  | zero =>
    cases n with
    | zero => omega
    | succ m => simp [List.replicate_succ]
  | succ o' ih =>
    cases n with
    | zero => omega
    | succ m =>
      simp only [List.replicate_succ, List.set_cons_succ, List.cons_append,
        List.cons.injEq, true_and]
      simpa using ih m (by omega)

theorem firstNonZero_allZero (L : List ℕ) (h : ∀ w ∈ L, w = 0) :
    BitMatrix.firstNonZero L = L.length := by
  induction L with
  | nil => rfl
  | cons a l ih =>
    have ha : a = 0 := h a (by simp)
    simp [BitMatrix.firstNonZero, ha, ih (fun w hw => h w (by simp [hw]))]

theorem firstNonZero_append (o v : ℕ) (t : List ℕ) (hv : v ≠ 0) :
    BitMatrix.firstNonZero (List.replicate o 0 ++ v :: t) = o := by
  induction o with
  | zero => simp [BitMatrix.firstNonZero, hv]
  | succ o' ih => simp [List.replicate_succ, BitMatrix.firstNonZero, ih]

theorem lastNonZero_allZero (L : List ℕ) (h : ∀ w ∈ L, w = 0) :
    BitMatrix.lastNonZero L = none := by
  induction L with
  | nil => rfl
  | cons a l ih =>
    have ha : a = 0 := h a (by simp)
    simp [BitMatrix.lastNonZero, ha, ih (fun w hw => h w (by simp [hw]))]

theorem lastNonZero_append (o v : ℕ) (t : ℕ) (hv : v ≠ 0) :
    BitMatrix.lastNonZero (List.replicate o 0 ++ v :: List.replicate t 0) = some o := by
  induction o with
  | zero =>
    simp [BitMatrix.lastNonZero, lastNonZero_allZero (List.replicate t 0) (by simp), hv]
  | succ o' ih => simp [List.replicate_succ, BitMatrix.lastNonZero, ih]

theorem lowBitScanAux_two_pow (r : ℕ) (hr : r < 32) :
    ∀ d bit, bit + d = 32 → bit ≤ r → BitMatrix.lowBitScanAux (2 ^ r) d bit = r := by
  intro d
  induction d with
  | zero => intro bit h1 h2; omega
  | succ d' ih =>
    intro bit h1 h2
    unfold BitMatrix.lowBitScanAux
    have hshift : (2 ^ r <<< (31 - bit)) % 2 ^ 32 = 2 ^ (r + (31 - bit)) % 2 ^ 32 := by
      rw [Nat.shiftLeft_eq, ← pow_add]
    rcases Nat.lt_or_ge bit r with hlt | hge
    · rw [if_pos]
      · exact ih (bit + 1) (by omega) (by omega)
      · rw [hshift]
        have hd : (2 : ℕ) ^ 32 ∣ 2 ^ (r + (31 - bit)) := pow_dvd_pow 2 (by omega)
        omega
    · have hbit : bit = r := by omega
      rw [if_neg]
      · exact hbit
      · rw [hshift]
        have he : r + (31 - bit) = 31 := by omega
        rw [he]
        have : (2 : ℕ) ^ 31 % 2 ^ 32 = 2 ^ 31 := Nat.mod_eq_of_lt (by norm_num)
        simp [this]

theorem lowBitScan_two_pow (r : ℕ) (hr : r < 32) : BitMatrix.lowBitScan (2 ^ r) 0 = r :=
  lowBitScanAux_two_pow r hr 32 0 rfl (by omega)

theorem highBitScan_two_pow (r : ℕ) : ∀ bit, r ≤ bit → BitMatrix.highBitScan (2 ^ r) bit = r := by
  intro bit
  induction bit with
  | zero =>
    intro h
    have hr : r = 0 := by omega
    subst hr
    simp [BitMatrix.highBitScan]
  | succ b ih =>
    intro h
    unfold BitMatrix.highBitScan
    rcases Nat.lt_or_ge r (b + 1) with hlt | hge
    · rw [if_pos]
      · exact ih (by omega)
      · rw [Nat.shiftRight_eq_div_pow]
        exact Nat.div_eq_of_lt (Nat.pow_lt_pow_right (by norm_num) hlt)
    · have hbr : r = b + 1 := by omega
      subst hbr
      rw [if_neg (by rw [Nat.shiftRight_eq_div_pow, Nat.div_self (by positivity)]; simp)]

theorem foldl_id_of_fixed {α : Type _} (f : α → ℕ → α) (l : List ℕ)
    (h : ∀ st, ∀ x ∈ l, f st x = st) : ∀ st, l.foldl f st = st := by
  induction l with
  | nil => intro st; rfl
  | cons a t ih =>
    intro st
    rw [List.foldl_cons, h st a (by simp)]
    exact ih (fun st x hx => h st x (by simp [hx])) st

theorem foldl_range_single {α : Type _} (f : α → ℕ → α) (k n : ℕ) (hk : k < n)
    (hid : ∀ st, ∀ x, x ≠ k → f st x = st) (st : α) :
    (List.range n).foldl f st = f st k := by
  induction n with
  | zero => omega
  | succ m ih =>
    rw [List.range_succ, List.foldl_append, List.foldl_cons, List.foldl_nil]
    rcases Nat.lt_or_ge k m with hlt | hge
    · rw [ih hlt, hid (f st k) m (by omega)]
    · have hkm : k = m := by omega
      subst hkm
      rw [foldl_id_of_fixed f (List.range k) (fun st x hx => hid st x (by
        intro hc
        subst hc
        exact absurd (List.mem_range.mp hx) (lt_irrefl x))) st]

theorem singleBit_bits (w h x0 y0 : ℕ) :
    ((zeroMatrix w h).set x0 y0).bits =
      (List.replicate ((w + 31) / 32 * h) 0).set (y0 * ((w + 31) / 32) + x0 / 32)
        (2 ^ (x0 % 32)) := by
  unfold zeroMatrix BitMatrix.set
  dsimp only
  rw [getD_replicate_zero, Nat.zero_or]

theorem singleBit_getD (w h x0 y0 i : ℕ) :
    ((zeroMatrix w h).set x0 y0).bits.getD i 0 =
      if i = y0 * ((w + 31) / 32) + x0 / 32 ∧
          y0 * ((w + 31) / 32) + x0 / 32 < (w + 31) / 32 * h then
        2 ^ (x0 % 32)
      else 0 := by
  rw [singleBit_bits, getD_set_single]
  simp only [List.length_replicate, getD_replicate_zero]

/-- C6 core facts packaged as one statement about the embedded queries. -/
theorem singleBit_offset_lt (w h x0 y0 : ℕ) (hx : x0 < w) (hy : y0 < h) :
    y0 * ((w + 31) / 32) + x0 / 32 < (w + 31) / 32 * h := by
  have hj : x0 / 32 < (w + 31) / 32 := by omega
  calc y0 * ((w + 31) / 32) + x0 / 32 < y0 * ((w + 31) / 32) + (w + 31) / 32 := by omega
    _ = (y0 + 1) * ((w + 31) / 32) := by ring
    _ ≤ h * ((w + 31) / 32) := Nat.mul_le_mul_right _ (by omega)
    _ = (w + 31) / 32 * h := by ring

theorem rowIndex_inj (RS y y0 x32 j0 : ℕ) (h32 : x32 < RS) (hj : j0 < RS)
    (hc : y * RS + x32 = y0 * RS + j0) : y = y0 ∧ x32 = j0 := by
  have hy : y = y0 := by
    rcases Nat.lt_trichotomy y y0 with hlt | heq | hgt
    · exfalso
      have : y * RS + x32 < y0 * RS + j0 := by
        calc y * RS + x32 < y * RS + RS := by omega
          _ = (y + 1) * RS := by ring
          _ ≤ y0 * RS := Nat.mul_le_mul_right _ (by omega)
          _ ≤ y0 * RS + j0 := by omega
      omega
    · exact heq
    · exfalso
      have : y0 * RS + j0 < y * RS + x32 := by
        calc y0 * RS + j0 < y0 * RS + RS := by omega
          _ = (y0 + 1) * RS := by ring
          _ ≤ y * RS := Nat.mul_le_mul_right _ (by omega)
          _ ≤ y * RS + x32 := by omega
      omega
  subst hy
  exact ⟨rfl, by omega⟩

theorem singleBit_word (w h x0 y0 : ℕ) (hx : x0 < w) (hy : y0 < h) :
    ∀ i, ((zeroMatrix w h).set x0 y0).bits.getD i 0 =
      if i = y0 * ((w + 31) / 32) + x0 / 32 then 2 ^ (x0 % 32) else 0 := by
  intro i
  rw [singleBit_getD]
  have ho0 := singleBit_offset_lt w h x0 y0 hx hy
  rcases eq_or_ne i (y0 * ((w + 31) / 32) + x0 / 32) with he | he
  · rw [if_pos ⟨he, ho0⟩, if_pos he]
  · rw [if_neg (fun hc => he hc.1), if_neg he]

theorem singleBit_encStep_main (w h x0 y0 : ℕ) (hx : x0 < w) (hy : y0 < h) :
    BitMatrix.encStep ((zeroMatrix w h).set x0 y0)
        ⟨(w : ℤ), (h : ℤ), -1, -1⟩ y0 (x0 / 32) =
      ⟨(x0 : ℤ), (y0 : ℤ), (x0 : ℤ), (y0 : ℤ)⟩ := by
  unfold BitMatrix.encStep
  dsimp only
  rw [show ((zeroMatrix w h).set x0 y0).rowSize = (w + 31) / 32 from rfl]
  rw [singleBit_word w h x0 y0 hx hy, if_pos rfl]
  rw [if_pos (pow_ne_zero _ (by norm_num))]
  have h1 : ((y0 : ℤ)) < (h : ℤ) := by exact_mod_cast hy
  have h2 : ((y0 : ℤ)) > -1 := by omega
  have h3 : ((32 * (x0 / 32) : ℕ) : ℤ) < (w : ℤ) := by
    have : 32 * (x0 / 32) < w := by omega
    exact_mod_cast this
  have hlow := lowBitScan_two_pow (x0 % 32) (by omega)
  have hhigh := highBitScan_two_pow (x0 % 32) 31 (by omega)
  rw [hlow, hhigh]
  have hx0 : (32 : ℤ) * (x0 / 32 : ℕ) + (x0 % 32 : ℕ) = (x0 : ℤ) := by
    push_cast
    omega
  simp only [BitMatrix.EncState.mk.injEq]
  refine ⟨?_, ?_, ?_, ?_⟩
  · rw [if_pos (by push_cast; omega), if_pos (by push_cast; omega)]
    push_cast
    omega
  · rw [if_pos h1]
  · rw [if_pos (by push_cast; omega), if_pos (by push_cast; omega)]
    push_cast
    omega
  · rw [if_pos h2]

theorem singleBit_encFold (w h x0 y0 : ℕ) (hx : x0 < w) (hy : y0 < h) :
    (List.range ((zeroMatrix w h).set x0 y0).height).foldl
        (fun st y => (List.range ((zeroMatrix w h).set x0 y0).rowSize).foldl
          (fun st x32 => BitMatrix.encStep ((zeroMatrix w h).set x0 y0) st y x32) st)
        ⟨(((zeroMatrix w h).set x0 y0).width : ℤ),
          (((zeroMatrix w h).set x0 y0).height : ℤ), -1, -1⟩ =
      ⟨(x0 : ℤ), (y0 : ℤ), (x0 : ℤ), (y0 : ℤ)⟩ := by
  have hH : ((zeroMatrix w h).set x0 y0).height = h := rfl
  have hW : ((zeroMatrix w h).set x0 y0).width = w := rfl
  have hRS : ((zeroMatrix w h).set x0 y0).rowSize = (w + 31) / 32 := rfl
  rw [hH, hW, hRS]
  have hword := singleBit_word w h x0 y0 hx hy
  have hstepid : ∀ y x32, x32 < (w + 31) / 32 →
      (y ≠ y0 ∨ x32 ≠ x0 / 32) → ∀ st,
      BitMatrix.encStep ((zeroMatrix w h).set x0 y0) st y x32 = st := by
    intro y x32 hx32 hne st
    unfold BitMatrix.encStep
    dsimp only
    rw [show ((zeroMatrix w h).set x0 y0).rowSize = (w + 31) / 32 from rfl]
    rw [hword]
    have hcond : ¬(y * ((w + 31) / 32) + x32 = y0 * ((w + 31) / 32) + x0 / 32) := by
      intro hc
      have hinj := rowIndex_inj ((w + 31) / 32) y y0 x32 (x0 / 32) hx32 (by omega) hc
      rcases hne with hne | hne
      · exact hne hinj.1
      · exact hne hinj.2
    rw [if_neg hcond]
    simp
  rw [foldl_range_single _ y0 h hy]
  · rw [foldl_range_single _ (x0 / 32) ((w + 31) / 32) (by omega)]
    · exact singleBit_encStep_main w h x0 y0 hx hy
    · intro st x32 hne
      rcases Nat.lt_or_ge x32 ((w + 31) / 32) with hlt | hge
      · exact hstepid y0 x32 hlt (Or.inr hne) st
      · unfold BitMatrix.encStep
        dsimp only
        rw [show ((zeroMatrix w h).set x0 y0).rowSize = (w + 31) / 32 from rfl, hword]
        have hout : ¬(y0 * ((w + 31) / 32) + x32 = y0 * ((w + 31) / 32) + x0 / 32) := by
          intro hc
          have h2 := Nat.add_left_cancel hc
          have hj : x0 / 32 < (w + 31) / 32 := by omega
          omega
        rw [if_neg hout]
        simp
  · intro st y hne
    apply foldl_id_of_fixed
    intro st' x32 hx32
    exact hstepid y x32 (List.mem_range.mp hx32) (Or.inl hne) st'

theorem allZero_encRect (m : BitMatrix) (h : ∀ w ∈ m.bits, w = 0) :
    m.getEnclosingRectangle = none := by
  unfold BitMatrix.getEnclosingRectangle
  dsimp only
  have hfold : (List.range m.height).foldl
      (fun st y => (List.range m.rowSize).foldl
        (fun st x32 => BitMatrix.encStep m st y x32) st)
      ⟨(m.width : ℤ), (m.height : ℤ), -1, -1⟩ =
      ⟨(m.width : ℤ), (m.height : ℤ), -1, -1⟩ := by
    apply foldl_id_of_fixed
    intro st y hy
    apply foldl_id_of_fixed
    intro st' x32 hx32
    unfold BitMatrix.encStep
    dsimp only
    rw [getD_zero_of_allZero _ _ h]
    simp
  rw [hfold]
  rw [if_pos]
  exact Or.inl (show (-1 : ℤ) < (m.width : ℤ) by omega)

theorem allZero_topLeft (m : BitMatrix) (h : ∀ w ∈ m.bits, w = 0) :
    m.getTopLeftOnBit = none := by
  unfold BitMatrix.getTopLeftOnBit
  rw [firstNonZero_allZero _ h, if_pos rfl]

theorem allZero_bottomRight (m : BitMatrix) (h : ∀ w ∈ m.bits, w = 0) :
    m.getBottomRightOnBit = none := by
  unfold BitMatrix.getBottomRightOnBit
  rw [lastNonZero_allZero _ h]

theorem singleBit_encRect (w h x0 y0 : ℕ) (hx : x0 < w) (hy : y0 < h)
    (hw31 : w ≤ 2 ^ 31) (hh31 : h ≤ 2 ^ 31) :
    ((zeroMatrix w h).set x0 y0).getEnclosingRectangle =
      some ((x0 : ℤ), (y0 : ℤ), 1, 1) := by
  unfold BitMatrix.getEnclosingRectangle
  dsimp only
  rw [singleBit_encFold w h x0 y0 hx hy]
  rw [if_neg (by simp)]
  have h1 : toInt32 (x0 : ℤ) = (x0 : ℤ) := toInt32_eq_self _ (by omega) (by omega)
  have h2 : toInt32 (y0 : ℤ) = (y0 : ℤ) := toInt32_eq_self _ (by omega) (by omega)
  have h3 : ((x0 : ℤ) - (x0 : ℤ) + 1) = 1 := by ring
  have h4 : ((y0 : ℤ) - (y0 : ℤ) + 1) = 1 := by ring
  rw [h1, h2, h3, h4, toInt32_eq_self 1 (by norm_num) (by norm_num)]

theorem singleBit_topLeft (w h x0 y0 : ℕ) (hx : x0 < w) (hy : y0 < h)
    (hw31 : w ≤ 2 ^ 31) (hh31 : h ≤ 2 ^ 31) :
    ((zeroMatrix w h).set x0 y0).getTopLeftOnBit = some ((x0 : ℤ), (y0 : ℤ)) := by
  have hrs1 : 1 ≤ (w + 31) / 32 := by omega
  have hj0 : x0 / 32 < (w + 31) / 32 := by omega
  have ho0 := singleBit_offset_lt w h x0 y0 hx hy
  have happ : ((zeroMatrix w h).set x0 y0).bits =
      List.replicate (y0 * ((w + 31) / 32) + x0 / 32) 0 ++ 2 ^ (x0 % 32) ::
        List.replicate ((w + 31) / 32 * h - (y0 * ((w + 31) / 32) + x0 / 32) - 1) 0 := by
    rw [singleBit_bits, set_replicate_eq_append _ _ _ ho0]
  have hlen : ((zeroMatrix w h).set x0 y0).bits.length = (w + 31) / 32 * h := by
    rw [singleBit_bits]
    simp
  have hfirst : BitMatrix.firstNonZero ((zeroMatrix w h).set x0 y0).bits =
      y0 * ((w + 31) / 32) + x0 / 32 := by
    rw [happ]
    exact firstNonZero_append _ _ _ (pow_ne_zero _ (by norm_num))
  unfold BitMatrix.getTopLeftOnBit
  dsimp only
  rw [hfirst, hlen, if_neg (by omega)]
  have hword := singleBit_word w h x0 y0 hx hy
  rw [hword, if_pos rfl]
  have hRS : ((zeroMatrix w h).set x0 y0).rowSize = (w + 31) / 32 := rfl
  rw [hRS]
  have hdiv : (y0 * ((w + 31) / 32) + x0 / 32) / ((w + 31) / 32) = y0 := by
    rw [Nat.mul_comm, Nat.mul_add_div (by omega)]
    rw [Nat.div_eq_of_lt hj0]
    omega
  have hmod : (y0 * ((w + 31) / 32) + x0 / 32) % ((w + 31) / 32) = x0 / 32 := by
    rw [Nat.mul_comm, Nat.mul_add_mod]
    exact Nat.mod_eq_of_lt hj0
  rw [hmod, lowBitScan_two_pow (x0 % 32) (by omega)]
  have hx' : x0 / 32 * 32 + x0 % 32 = x0 := by omega
  rw [hx']
  have hy' : ratToInt32 ((y0 * ((w + 31) / 32) + x0 / 32 : ℕ) / ((w + 31) / 32 : ℕ) : ℚ) =
      (y0 : ℤ) := by
    unfold ratToInt32
    rw [if_pos (by positivity)]
    rw [Rat.floor_natCast_div_natCast, ← Int.natCast_div, hdiv]
    exact toInt32_eq_self _ (by omega) (by omega)
  rw [hy', toInt32_eq_self _ (by omega) (by omega)]

theorem singleBit_bottomRight (w h x0 y0 : ℕ) (hx : x0 < w) (hy : y0 < h)
    (hw31 : w ≤ 2 ^ 31) (hh31 : h ≤ 2 ^ 31) :
    ((zeroMatrix w h).set x0 y0).getBottomRightOnBit = some ((x0 : ℤ), (y0 : ℤ)) := by
  have hrs1 : 1 ≤ (w + 31) / 32 := by omega
  have hj0 : x0 / 32 < (w + 31) / 32 := by omega
  have ho0 := singleBit_offset_lt w h x0 y0 hx hy
  have happ : ((zeroMatrix w h).set x0 y0).bits =
      List.replicate (y0 * ((w + 31) / 32) + x0 / 32) 0 ++ 2 ^ (x0 % 32) ::
        List.replicate ((w + 31) / 32 * h - (y0 * ((w + 31) / 32) + x0 / 32) - 1) 0 := by
    rw [singleBit_bits, set_replicate_eq_append _ _ _ ho0]
  have hlast : BitMatrix.lastNonZero ((zeroMatrix w h).set x0 y0).bits =
      some (y0 * ((w + 31) / 32) + x0 / 32) := by
    rw [happ]
    exact lastNonZero_append _ _ _ (pow_ne_zero _ (by norm_num))
  unfold BitMatrix.getBottomRightOnBit
  dsimp only
  rw [hlast]
  dsimp only
  have hword := singleBit_word w h x0 y0 hx hy
  rw [hword, if_pos rfl]
  have hRS : ((zeroMatrix w h).set x0 y0).rowSize = (w + 31) / 32 := rfl
  rw [hRS]
  have hdiv : (y0 * ((w + 31) / 32) + x0 / 32) / ((w + 31) / 32) = y0 := by
    rw [Nat.mul_comm, Nat.mul_add_div (by omega)]
    rw [Nat.div_eq_of_lt hj0]
    omega
  have hmod : (y0 * ((w + 31) / 32) + x0 / 32) % ((w + 31) / 32) = x0 / 32 := by
    rw [Nat.mul_comm, Nat.mul_add_mod]
    exact Nat.mod_eq_of_lt hj0
  rw [hmod, hdiv, highBitScan_two_pow (x0 % 32) 31 (by omega)]
  have hx' : x0 / 32 * 32 + x0 % 32 = x0 := by omega
  rw [hx']
  rw [toInt32_eq_self _ (by omega) (by omega), toInt32_eq_self _ (by omega) (by omega)]

/-! ## Claim C6 -/

/-- C6: for a BitMatrix with no set bits, `getEnclosingRectangle`,
`getTopLeftOnBit` and `getBottomRightOnBit` all return `null`; for a matrix
with exactly one set bit at `(x0, y0)`, the enclosing rectangle is
`(x0, y0, 1, 1)` and both corner queries return `(x0, y0)`.  (The dimension
bounds `≤ 2^31` record that the coordinates survive the `Int32Array.from`
coercion of the return values, which also truncates the fractional
`bitsOffset / rowSize` of `getTopLeftOnBit` back to the integer row.) -/
theorem boundingBox_queries :
    (∀ m : BitMatrix, (∀ w ∈ m.bits, w = 0) →
      m.getEnclosingRectangle = none ∧ m.getTopLeftOnBit = none ∧
        m.getBottomRightOnBit = none) ∧
    ∀ w h x0 y0 : ℕ, x0 < w → y0 < h → w ≤ 2 ^ 31 → h ≤ 2 ^ 31 →
      ((zeroMatrix w h).set x0 y0).getEnclosingRectangle =
          some ((x0 : ℤ), (y0 : ℤ), 1, 1) ∧
        ((zeroMatrix w h).set x0 y0).getTopLeftOnBit = some ((x0 : ℤ), (y0 : ℤ)) ∧
        ((zeroMatrix w h).set x0 y0).getBottomRightOnBit = some ((x0 : ℤ), (y0 : ℤ)) :=
  ⟨fun m h => ⟨allZero_encRect m h, allZero_topLeft m h, allZero_bottomRight m h⟩,
    fun w h x0 y0 hx hy hw31 hh31 =>
      ⟨singleBit_encRect w h x0 y0 hx hy hw31 hh31,
        singleBit_topLeft w h x0 y0 hx hy hw31 hh31,
        singleBit_bottomRight w h x0 y0 hx hy hw31 hh31⟩⟩

/-- Witness for C6: a 40×2 matrix with its only bit at `(32, 1)` — a case
where `bitsOffset / rowSize` is fractional before the `Int32Array.from`
truncation. -/
theorem boundingBox_queries_witness :
    ((32 : ℕ) < 40 ∧ (1 : ℕ) < 2 ∧ (40 : ℕ) ≤ 2 ^ 31 ∧ (2 : ℕ) ≤ 2 ^ 31) ∧
      ((zeroMatrix 40 2).set 32 1).getEnclosingRectangle = some (32, 1, 1, 1) ∧
      ((zeroMatrix 40 2).set 32 1).getTopLeftOnBit = some (32, 1) ∧
      ((zeroMatrix 40 2).set 32 1).getBottomRightOnBit = some (32, 1) :=
  ⟨⟨by norm_num, by norm_num, by norm_num, by norm_num⟩,
    boundingBox_queries.2 40 2 32 1 (by norm_num) (by norm_num) (by norm_num) (by norm_num)⟩

/-! ## Helper lemmas for packed rows (C8, C7) -/

theorem ofBits_testBit (l : List Bool) : ∀ k, (ofBits l).testBit k = l.getD k false := by
  induction l with
  | nil => intro k; simp [ofBits]
  | cons b l ih =>
    intro k
    cases k with
    | zero =>
      rw [Nat.testBit_zero]
      cases b <;> simp [ofBits] <;> omega
    | succ j =>
      rw [Nat.testBit_succ]
      have hdiv : ofBits (b :: l) / 2 = ofBits l := by
        cases b <;> simp [ofBits] <;> omega
      rw [hdiv, ih j]
      simp

theorem ofBits_lt (l : List Bool) : ofBits l < 2 ^ l.length := by
  induction l with
  | nil => simp [ofBits]
  | cons b l ih =>
    have : ofBits (b :: l) ≤ 1 + 2 * ofBits l := by
      cases b <;> simp [ofBits]
    calc ofBits (b :: l) ≤ 1 + 2 * ofBits l := this
      _ < 2 ^ (l.length + 1) := by
        rw [pow_succ]
        omega
      _ = 2 ^ (b :: l).length := by simp

theorem testBit_ge_32 (w b : ℕ) (hw : w < 2 ^ 32) (hb : 32 ≤ b) :
    w.testBit b = false :=
  Nat.testBit_lt_two_pow (lt_of_lt_of_le hw (Nat.pow_le_pow_right (by norm_num) hb))

theorem list_ext_getD (A B : List ℕ) (hlen : A.length = B.length)
    (h : ∀ k < A.length, A.getD k 0 = B.getD k 0) : A = B := by
  apply List.ext_getElem hlen
  intro k h1 h2
  have := h k h1
  rwa [List.getD_eq_getElem?_getD, List.getD_eq_getElem?_getD,
    List.getElem?_eq_getElem h1, List.getElem?_eq_getElem h2] at this

namespace BitMatrix

theorem setRowWords_width (m : BitMatrix) (y : ℕ) (ws : List ℕ) :
    (m.setRowWords y ws).width = m.width := rfl

theorem setRowWords_height (m : BitMatrix) (y : ℕ) (ws : List ℕ) :
    (m.setRowWords y ws).height = m.height := rfl

theorem setRowWords_rowSize (m : BitMatrix) (y : ℕ) (ws : List ℕ) :
    (m.setRowWords y ws).rowSize = m.rowSize := rfl

theorem setRowWords_length (m : BitMatrix) (y : ℕ) (ws : List ℕ)
    (hy : y * m.rowSize + m.rowSize ≤ m.bits.length) (hws : ws.length = m.rowSize) :
    (m.setRowWords y ws).bits.length = m.bits.length := by
  unfold setRowWords
  simp only [List.length_append, List.length_take, List.length_drop]
  omega

theorem getD_rowWords (m : BitMatrix) (y k : ℕ) (hk : k < m.rowSize) :
    (m.rowWords y).getD k 0 = m.bits.getD (y * m.rowSize + k) 0 := by
  unfold rowWords
  rw [List.getD_eq_getElem?_getD, List.getD_eq_getElem?_getD,
    List.getElem?_take_of_lt hk, List.getElem?_drop]

theorem length_rowWords (m : BitMatrix) (y : ℕ)
    (hy : y * m.rowSize + m.rowSize ≤ m.bits.length) :
    (m.rowWords y).length = m.rowSize := by
  unfold rowWords
  simp only [List.length_take, List.length_drop]
  omega

theorem getD_setRowWords (m : BitMatrix) (y : ℕ) (ws : List ℕ) (i : ℕ)
    (hy : y * m.rowSize + m.rowSize ≤ m.bits.length) (hws : ws.length = m.rowSize) :
    (m.setRowWords y ws).bits.getD i 0 =
      if y * m.rowSize ≤ i ∧ i < y * m.rowSize + m.rowSize then ws.getD (i - y * m.rowSize) 0
      else m.bits.getD i 0 := by
  unfold setRowWords
  dsimp only
  have hAlen : (m.bits.take (y * m.rowSize)).length = y * m.rowSize := by
    simp only [List.length_take]
    omega
  have hBlen : (ws.take m.rowSize).length = m.rowSize := by
    simp only [List.length_take]
    omega
  rcases Nat.lt_or_ge i (y * m.rowSize) with h1 | h1
  · rw [if_neg (by omega)]
    rw [List.getD_eq_getElem?_getD, List.getElem?_append_left (by
      simp only [List.length_append]
      omega)]
    rw [List.getElem?_append_left (by omega), ← List.getD_eq_getElem?_getD,
      List.getD_eq_getElem?_getD, List.getElem?_take_of_lt h1,
      ← List.getD_eq_getElem?_getD]
  · rcases Nat.lt_or_ge i (y * m.rowSize + m.rowSize) with h2 | h2
    · rw [if_pos ⟨h1, h2⟩]
      rw [List.getD_eq_getElem?_getD, List.getElem?_append_left (by
        simp only [List.length_append]
        omega)]
      rw [List.getElem?_append_right (by omega), hAlen]
      rw [← List.getD_eq_getElem?_getD, List.getD_eq_getElem?_getD,
        List.getElem?_take_of_lt (by omega), ← List.getD_eq_getElem?_getD]
    · rw [if_neg (by omega)]
      rw [List.getD_eq_getElem?_getD, List.getElem?_append_right (by
        simp only [List.length_append]
        omega)]
      simp only [List.length_append, hAlen, hBlen]
      rw [List.getElem?_drop, ← List.getD_eq_getElem?_getD]
      congr 1
      omega

end BitMatrix

theorem length_reverseRowWords (width : ℕ) (ws : List ℕ) :
    (BitMatrix.reverseRowWords width ws).length = (width + 31) / 32 := by
  simp [BitMatrix.reverseRowWords]

theorem getD_reverseRowWords (width : ℕ) (ws : List ℕ) (j : ℕ)
    (hj : j < (width + 31) / 32) :
    (BitMatrix.reverseRowWords width ws).getD j 0 =
      ofBits ((List.range 32).map (fun b =>
        decide (32 * j + b < width) && bitAt ws (width - 1 - (32 * j + b)))) := by
  unfold BitMatrix.reverseRowWords
  rw [List.getD_eq_getElem?_getD, List.getElem?_map,
    List.getElem?_range (by simpa using hj)]
  rfl

theorem reverseRowWords_lt (width : ℕ) (ws : List ℕ) :
    ∀ v ∈ BitMatrix.reverseRowWords width ws, v < 2 ^ 32 := by
  intro v hv
  unfold BitMatrix.reverseRowWords at hv
  obtain ⟨j, hj, rfl⟩ := List.mem_map.mp hv
  have := ofBits_lt ((List.range 32).map (fun b =>
    decide (32 * j + b < width) && bitAt ws (width - 1 - (32 * j + b))))
  simpa using this

theorem testBit_reverseRowWords (width : ℕ) (ws : List ℕ) (j b : ℕ)
    (hj : j < (width + 31) / 32) (hb : b < 32) :
    ((BitMatrix.reverseRowWords width ws).getD j 0).testBit b =
      (decide (32 * j + b < width) && bitAt ws (width - 1 - (32 * j + b))) := by
  rw [getD_reverseRowWords width ws j hj, ofBits_testBit]
  rw [List.getD_eq_getElem?_getD, List.getElem?_map, List.getElem?_range (by simpa using hb)]
  rfl

theorem rowWf_reverseRowWords (width : ℕ) (ws : List ℕ) :
    RowWf width (BitMatrix.reverseRowWords width ws) := by
  refine ⟨length_reverseRowWords width ws, reverseRowWords_lt width ws, ?_⟩
  intro j b hb hwb
  rcases Nat.lt_or_ge j ((width + 31) / 32) with hj | hj
  · rw [testBit_reverseRowWords width ws j b hj hb]
    simp only [Bool.and_eq_false_imp, decide_eq_true_eq]
    intro hc
    omega
  · rw [List.getD_eq_default]
    · exact Nat.zero_testBit b
    · rw [length_reverseRowWords]
      omega

theorem bitAt_reverseRowWords (width : ℕ) (ws : List ℕ) (k : ℕ) (hk : k < width) :
    bitAt (BitMatrix.reverseRowWords width ws) k = bitAt ws (width - 1 - k) := by
  unfold bitAt
  have hj : k / 32 < (width + 31) / 32 := by omega
  rw [testBit_reverseRowWords width ws (k / 32) (k % 32) hj (by omega)]
  have hk' : 32 * (k / 32) + k % 32 = k := by omega
  rw [hk']
  simp [hk, bitAt]

theorem bitAt_eq_testBit (ws : List ℕ) (j b : ℕ) (hb : b < 32) :
    bitAt ws (32 * j + b) = (ws.getD j 0).testBit b := by
  unfold bitAt
  have h1 : (32 * j + b) / 32 = j := by omega
  have h2 : (32 * j + b) % 32 = b := by omega
  rw [h1, h2]

theorem reverseRowWords_involutive (width : ℕ) (ws : List ℕ) (hwf : RowWf width ws) :
    BitMatrix.reverseRowWords width (BitMatrix.reverseRowWords width ws) = ws := by
  obtain ⟨hlen, hbound, hpad⟩ := hwf
  apply list_ext_getD
  · rw [length_reverseRowWords, hlen]
  · intro k hk
    rw [length_reverseRowWords] at hk
    apply Nat.eq_of_testBit_eq
    intro b
    rcases Nat.lt_or_ge b 32 with hb | hb
    · rw [testBit_reverseRowWords _ _ k b hk hb]
      rcases Nat.lt_or_ge (32 * k + b) width with hin | hout
      · have h1 : width - 1 - (32 * k + b) < width := by omega
        rw [bitAt_reverseRowWords width ws _ h1]
        have h2 : width - 1 - (width - 1 - (32 * k + b)) = 32 * k + b := by omega
        rw [h2, bitAt_eq_testBit ws k b hb]
        simp [hin]
      · rw [hpad k b hb hout]
        simp
        omega
    · rw [testBit_ge_32 _ b ?lhsb hb, testBit_ge_32 _ b ?rhsb hb]
      case lhsb =>
        have hmem : (BitMatrix.reverseRowWords width (BitMatrix.reverseRowWords width ws)).getD k 0 ∈
            BitMatrix.reverseRowWords width (BitMatrix.reverseRowWords width ws) ∨
            (BitMatrix.reverseRowWords width (BitMatrix.reverseRowWords width ws)).getD k 0 = 0 := by
          rcases Nat.lt_or_ge k (BitMatrix.reverseRowWords width
              (BitMatrix.reverseRowWords width ws)).length with hlt | hge
          · left
            rw [List.getD_eq_getElem?_getD, List.getElem?_eq_getElem hlt]
            exact List.getElem_mem hlt
          · right
            exact List.getD_eq_default _ _ hge
        rcases hmem with hmem | hz
        · exact reverseRowWords_lt width _ _ hmem
        · rw [hz]
          norm_num
      case rhsb =>
        rcases Nat.lt_or_ge k ws.length with hlt | hge
        · refine hbound _ ?_
          rw [List.getD_eq_getElem?_getD, List.getElem?_eq_getElem hlt]
          exact List.getElem_mem hlt
        · rw [List.getD_eq_default _ _ hge]
          norm_num

theorem rowInterval_cases (RS a j k : ℕ) (hk : k < RS) :
    (a * RS ≤ j * RS + k ∧ j * RS + k < a * RS + RS) ↔ j = a := by
  constructor
  · rintro ⟨h1, h2⟩
    rcases Nat.lt_trichotomy j a with hlt | heq | hgt
    · exfalso
      have hstep : j * RS + k < a * RS := by
        calc j * RS + k < j * RS + RS := by omega
          _ = (j + 1) * RS := by ring
          _ ≤ a * RS := Nat.mul_le_mul_right _ (by omega)
      omega
    · exact heq
    · exfalso
      have hstep : a * RS + RS ≤ j * RS := by
        calc a * RS + RS = (a + 1) * RS := by ring
          _ ≤ j * RS := Nat.mul_le_mul_right _ (by omega)
      omega
  · rintro rfl
    omega

theorem row_end_le (RS h a : ℕ) (ha : a < h) : a * RS + RS ≤ RS * h := by
  calc a * RS + RS = (a + 1) * RS := by ring
    _ ≤ h * RS := Nat.mul_le_mul_right _ (by omega)
    _ = RS * h := by ring

namespace BitMatrix

theorem rotStep_width (m : BitMatrix) (i : ℕ) : (m.rotStep i).width = m.width := rfl

theorem rotStep_height (m : BitMatrix) (i : ℕ) : (m.rotStep i).height = m.height := rfl

theorem rotStep_rowSize (m : BitMatrix) (i : ℕ) : (m.rotStep i).rowSize = m.rowSize := rfl

theorem rotStep_length (m : BitMatrix) (i : ℕ)
    (hRS : m.rowSize = (m.width + 31) / 32)
    (hlen : m.bits.length = m.rowSize * m.height)
    (hi : i < m.height) :
    (m.rotStep i).bits.length = m.bits.length := by
  have hlenA : (reverseRowWords m.width (m.rowWords (m.height - 1 - i))).length = m.rowSize := by
    rw [length_reverseRowWords, hRS]
  have hlenB : (reverseRowWords m.width (m.rowWords i)).length = m.rowSize := by
    rw [length_reverseRowWords, hRS]
  have h1 : i * m.rowSize + m.rowSize ≤ m.bits.length := by
    rw [hlen]
    exact row_end_le _ _ _ hi
  have hmid : m.height - 1 - i < m.height := by omega
  have h2 : (m.height - 1 - i) * m.rowSize + m.rowSize ≤ m.bits.length := by
    rw [hlen]
    exact row_end_le _ _ _ hmid
  have hm1 : (m.setRowWords i (reverseRowWords m.width
      (m.rowWords (m.height - 1 - i)))).bits.length = m.bits.length :=
    setRowWords_length m i _ h1 hlenA
  show ((m.setRowWords i (reverseRowWords m.width (m.rowWords (m.height - 1 - i)))).setRowWords
      (m.height - 1 - i) (reverseRowWords m.width (m.rowWords i))).bits.length = m.bits.length
  rw [setRowWords_length _ _ _ ?h3 ?h4]
  · exact hm1
  case h3 =>
    rw [show (m.setRowWords i (reverseRowWords m.width
      (m.rowWords (m.height - 1 - i)))).rowSize = m.rowSize from rfl, hm1]
    exact h2
  case h4 =>
    rw [show (m.setRowWords i (reverseRowWords m.width
      (m.rowWords (m.height - 1 - i)))).rowSize = m.rowSize from rfl]
    exact hlenB

theorem rowWords_rotStep (m : BitMatrix) (i j : ℕ)
    (hRS : m.rowSize = (m.width + 31) / 32)
    (hlen : m.bits.length = m.rowSize * m.height)
    (hi : i < m.height) (hj : j < m.height) :
    (m.rotStep i).rowWords j =
      if j = i then reverseRowWords m.width (m.rowWords (m.height - 1 - i))
      else if j = m.height - 1 - i then reverseRowWords m.width (m.rowWords i)
      else m.rowWords j := by
  have hlenA : (reverseRowWords m.width (m.rowWords (m.height - 1 - i))).length = m.rowSize := by
    rw [length_reverseRowWords, hRS]
  have hlenB : (reverseRowWords m.width (m.rowWords i)).length = m.rowSize := by
    rw [length_reverseRowWords, hRS]
  have hie : i * m.rowSize + m.rowSize ≤ m.bits.length := by
    rw [hlen]; exact row_end_le _ _ _ hi
  have hbe : (m.height - 1 - i) * m.rowSize + m.rowSize ≤ m.bits.length := by
    rw [hlen]; exact row_end_le _ _ _ (by omega)
  have hje : j * m.rowSize + m.rowSize ≤ m.bits.length := by
    rw [hlen]; exact row_end_le _ _ _ hj
  have hm1len : (m.setRowWords i (reverseRowWords m.width
      (m.rowWords (m.height - 1 - i)))).bits.length = m.bits.length :=
    setRowWords_length m i _ hie hlenA
  have hstep_len : (m.rotStep i).bits.length = m.bits.length :=
    rotStep_length m i hRS hlen hi
  have hrowlen : ((m.rotStep i).rowWords j).length = m.rowSize := by
    apply length_rowWords
    rw [show (m.rotStep i).rowSize = m.rowSize from rfl, hstep_len]
    exact hje
  have hgetstep : ∀ k, k < m.rowSize →
      ((m.rotStep i).rowWords j).getD k 0 =
        (if j = m.height - 1 - i then (reverseRowWords m.width (m.rowWords i)).getD k 0
         else if j = i then (reverseRowWords m.width (m.rowWords (m.height - 1 - i))).getD k 0
         else m.bits.getD (j * m.rowSize + k) 0) := by
    intro k hk
    rw [getD_rowWords (m.rotStep i) j k hk,
      show (m.rotStep i).rowSize = m.rowSize from rfl]
    show ((m.setRowWords i (reverseRowWords m.width (m.rowWords (m.height - 1 - i)))).setRowWords
        (m.height - 1 - i) (reverseRowWords m.width (m.rowWords i))).bits.getD
        (j * m.rowSize + k) 0 = _
    rw [getD_setRowWords _ _ _ _ ?hc1 ?hc2]
    case hc1 =>
      simp only [setRowWords_rowSize, setRowWords_height]
      rw [hm1len]
      exact hbe
    case hc2 =>
      simp only [setRowWords_rowSize]
      exact hlenB
    simp only [setRowWords_rowSize]
    rcases eq_or_ne j (m.height - 1 - i) with hcase | hcase
    · rw [if_pos (by rw [← hcase]; omega), if_pos hcase]
      rw [← hcase]
      congr 1
      omega
    · rw [if_neg (fun hcc =>
        hcase ((rowInterval_cases m.rowSize (m.height - 1 - i) j k hk).mp hcc)),
        if_neg hcase]
      rw [getD_setRowWords m i _ _ hie hlenA]
      rcases eq_or_ne j i with hcase2 | hcase2
      · rw [if_pos (by rw [← hcase2]; omega), if_pos hcase2]
        rw [← hcase2]
        congr 1
        omega
      · rw [if_neg (fun hcc =>
          hcase2 ((rowInterval_cases m.rowSize i j k hk).mp hcc)),
          if_neg hcase2]
  rcases eq_or_ne j i with hji | hji
  · rw [if_pos hji]
    apply list_ext_getD
    · rw [hrowlen, hlenA]
    · intro k hk
      rw [hrowlen] at hk
      rw [hgetstep k hk]
      rcases eq_or_ne j (m.height - 1 - i) with hmid | hmid
      · rw [if_pos hmid]
        have hii : m.height - 1 - i = i := by omega
        rw [hii, ← hji]
      · rw [if_neg hmid, if_pos hji]
  · rw [if_neg hji]
    rcases eq_or_ne j (m.height - 1 - i) with hjb | hjb
    · rw [if_pos hjb]
      apply list_ext_getD
      · rw [hrowlen, hlenB]
      · intro k hk
        rw [hrowlen] at hk
        rw [hgetstep k hk, if_pos hjb]
    · rw [if_neg hjb]
      apply list_ext_getD
      · rw [hrowlen, length_rowWords m j hje]
      · intro k hk
        rw [hrowlen] at hk
        rw [hgetstep k hk, if_neg hjb, if_neg hji, getD_rowWords m j k hk]

end BitMatrix

namespace BitMatrix

theorem rotFold_spec (n : ℕ) : ∀ (m : BitMatrix) (i0 : ℕ),
    m.rowSize = (m.width + 31) / 32 → m.bits.length = m.rowSize * m.height →
    i0 + n = (m.height + 1) / 2 →
    (((List.range' i0 n).foldl rotStep m).width = m.width ∧
      ((List.range' i0 n).foldl rotStep m).height = m.height ∧
      ((List.range' i0 n).foldl rotStep m).rowSize = m.rowSize ∧
      ((List.range' i0 n).foldl rotStep m).bits.length = m.bits.length) ∧
    ∀ j < m.height,
      ((List.range' i0 n).foldl rotStep m).rowWords j =
        if (i0 ≤ j ∧ j < i0 + n) ∨
            (i0 ≤ m.height - 1 - j ∧ m.height - 1 - j < i0 + n) then
          reverseRowWords m.width (m.rowWords (m.height - 1 - j))
        else m.rowWords j := by
  induction n with
  | zero =>
    intro m i0 hRS hlen hL
    refine ⟨⟨rfl, rfl, rfl, rfl⟩, ?_⟩
    intro j hj
    rw [if_neg (by omega)]
    rfl
  | succ n ih =>
    intro m i0 hRS hlen hL
    have hh1 : 1 ≤ m.height := by omega
    have hi0 : i0 < m.height := by omega
    have hb0 : m.height - 1 - i0 < m.height := by omega
    have hfold : (List.range' i0 (n + 1)).foldl rotStep m =
        (List.range' (i0 + 1) n).foldl rotStep (m.rotStep i0) := by
      rw [List.range'_succ, List.foldl_cons]
    have hstepW : (m.rotStep i0).width = m.width := rfl
    have hstepH : (m.rotStep i0).height = m.height := rfl
    have hstepRS : (m.rotStep i0).rowSize = m.rowSize := rfl
    have hstepL : (m.rotStep i0).bits.length = m.bits.length :=
      rotStep_length m i0 hRS hlen hi0
    have ihm := ih (m.rotStep i0) (i0 + 1)
      (by rw [hstepRS, hstepW]; exact hRS)
      (by rw [hstepL, hstepRS, hstepH]; exact hlen)
      (by rw [hstepH]; omega)
    obtain ⟨⟨ihW, ihH, ihRS, ihL⟩, ihrows⟩ := ihm
    rw [hfold]
    refine ⟨⟨by rw [ihW, hstepW], by rw [ihH, hstepH], by rw [ihRS, hstepRS],
      by rw [ihL, hstepL]⟩, ?_⟩
    intro j hj
    have hrot : ∀ j', j' < m.height → (m.rotStep i0).rowWords j' =
        if j' = i0 then reverseRowWords m.width (m.rowWords (m.height - 1 - i0))
        else if j' = m.height - 1 - i0 then reverseRowWords m.width (m.rowWords i0)
        else m.rowWords j' :=
      fun j' hj' => rowWords_rotStep m i0 j' hRS hlen hi0 hj'
    have hjrow := ihrows j (by rw [hstepH]; exact hj)
    rw [hstepH, hstepW] at hjrow
    rw [hjrow]
    by_cases htouch : (i0 + 1 ≤ j ∧ j < i0 + 1 + n) ∨
        (i0 + 1 ≤ m.height - 1 - j ∧ m.height - 1 - j < i0 + 1 + n)
    · rw [if_pos htouch]
      have hback : (m.rotStep i0).rowWords (m.height - 1 - j) =
          m.rowWords (m.height - 1 - j) := by
        rw [hrot (m.height - 1 - j) (by omega)]
        rw [if_neg (by omega), if_neg (by omega)]
      rw [hback, if_pos (by omega)]
    · rw [if_neg htouch]
      rw [hrot j hj]
      rcases eq_or_ne j i0 with hji | hji
      · rw [if_pos hji, if_pos (by omega), hji]
      · rw [if_neg hji]
        rcases eq_or_ne j (m.height - 1 - i0) with hjb | hjb
        · rw [if_pos hjb]
          have hflip : m.height - 1 - j = i0 := by omega
          rw [if_pos (by omega), hflip]
        · rw [if_neg hjb, if_neg (by omega)]

end BitMatrix

theorem getD_lt_of_bound (ws : List ℕ) (k : ℕ) (h : ∀ v ∈ ws, v < 2 ^ 32) :
    ws.getD k 0 < 2 ^ 32 := by
  rcases Nat.lt_or_ge k ws.length with hlt | hge
  · refine h _ ?_
    rw [List.getD_eq_getElem?_getD, List.getElem?_eq_getElem hlt]
    exact List.getElem_mem hlt
  · rw [List.getD_eq_default _ _ hge]
    norm_num

namespace BitMatrix

theorem rowWf_of_wf (m : BitMatrix) (hwf : m.Wf) (y : ℕ) (hy : y < m.height) :
    RowWf m.width (m.rowWords y) := by
  obtain ⟨hW, hH, hRS, hlen, hbound, hpad⟩ := hwf
  have hye : y * m.rowSize + m.rowSize ≤ m.bits.length := by
    rw [hlen]; exact row_end_le _ _ _ hy
  refine ⟨?_, ?_, ?_⟩
  · rw [length_rowWords m y hye, hRS]
  · intro v hv
    exact hbound v (List.mem_of_mem_drop (List.mem_of_mem_take hv))
  · intro j b hb hwb
    rcases Nat.lt_or_ge j m.rowSize with hj | hj
    · rw [getD_rowWords m y j hj]
      exact hpad y hy j hj b hb hwb
    · rw [List.getD_eq_default]
      · exact Nat.zero_testBit b
      · rw [length_rowWords m y hye]
        exact hj

theorem rotate180_spec (m : BitMatrix) (hRS : m.rowSize = (m.width + 31) / 32)
    (hlen : m.bits.length = m.rowSize * m.height) :
    (m.rotate180.width = m.width ∧ m.rotate180.height = m.height ∧
      m.rotate180.rowSize = m.rowSize ∧ m.rotate180.bits.length = m.bits.length) ∧
    ∀ j < m.height, m.rotate180.rowWords j =
      reverseRowWords m.width (m.rowWords (m.height - 1 - j)) := by
  have hspec := rotFold_spec ((m.height + 1) / 2) m 0 hRS hlen (by omega)
  unfold rotate180
  rw [List.range_eq_range']
  refine ⟨hspec.1, ?_⟩
  intro j hj
  rw [hspec.2 j hj, if_pos (by omega)]

theorem bits_eq_of_rowWords_eq (m1 m2 : BitMatrix) (hRS : m1.rowSize = m2.rowSize)
    (hrs1 : 1 ≤ m1.rowSize) (hh : m1.height = m2.height)
    (hl1 : m1.bits.length = m1.rowSize * m1.height)
    (hl2 : m2.bits.length = m2.rowSize * m2.height)
    (hrows : ∀ j < m1.height, m1.rowWords j = m2.rowWords j) : m1.bits = m2.bits := by
  apply list_ext_getD
  · rw [hl1, hl2, hRS, hh]
  · intro k hk
    rw [hl1] at hk
    have hjlt : k / m1.rowSize < m1.height := by
      rw [Nat.div_lt_iff_lt_mul (by omega)]
      rw [Nat.mul_comm m1.height]
      exact hk
    have hrlt : k % m1.rowSize < m1.rowSize := Nat.mod_lt _ (by omega)
    have hksplit : k = k / m1.rowSize * m1.rowSize + k % m1.rowSize := by
      rw [Nat.mul_comm]
      exact (Nat.div_add_mod k m1.rowSize).symm
    have e1 : m1.bits.getD k 0 = (m1.rowWords (k / m1.rowSize)).getD (k % m1.rowSize) 0 := by
      rw [getD_rowWords m1 _ _ hrlt, ← hksplit]
    have e2 : m2.bits.getD k 0 = (m2.rowWords (k / m1.rowSize)).getD (k % m1.rowSize) 0 := by
      rw [getD_rowWords m2 _ _ (by rw [← hRS]; exact hrlt), ← hRS, ← hksplit]
    rw [e1, e2, hrows _ hjlt]

theorem bitMatrix_ext (m1 m2 : BitMatrix) (h1 : m1.width = m2.width)
    (h2 : m1.height = m2.height) (h3 : m1.rowSize = m2.rowSize)
    (h4 : m1.bits = m2.bits) : m1 = m2 := by
  cases m1
  cases m2
  simp_all

end BitMatrix

/-! ## Claim C8 -/

/-- C8: for every well-formed BitMatrix, `rotate180()` applied twice restores
the original matrix, and a single `rotate180()` makes row `j` the bit-reversed
row `height - 1 - j` of the original (for odd heights the middle row is
reversed in place, the `j = height - 1 - j` case of the same equation).
`reverseRowWords` is the spec-modelled `BitArray.reverse` (the `BitArray`
source file is not part of the repository). -/
theorem rotate180_involution :
    ∀ m : BitMatrix, m.Wf →
      m.rotate180.rotate180 = m ∧
      ∀ j < m.height, m.rotate180.rowWords j =
        BitMatrix.reverseRowWords m.width (m.rowWords (m.height - 1 - j)) := by
  intro m hwf
  obtain ⟨hW, hH, hRS, hlen, hbound, hpad⟩ := hwf
  have hspec := BitMatrix.rotate180_spec m hRS hlen
  obtain ⟨⟨hW1, hH1, hRS1, hL1⟩, hrows1⟩ := hspec
  refine ⟨?_, hrows1⟩
  have hspec2 := BitMatrix.rotate180_spec m.rotate180
    (by rw [hRS1, hW1]; exact hRS) (by rw [hL1, hRS1, hH1]; exact hlen)
  obtain ⟨⟨hW2, hH2, hRS2, hL2⟩, hrows2⟩ := hspec2
  apply BitMatrix.bitMatrix_ext
  · rw [hW2, hW1]
  · rw [hH2, hH1]
  · rw [hRS2, hRS1]
  · apply BitMatrix.bits_eq_of_rowWords_eq
    · rw [hRS2, hRS1]
    · rw [hRS2, hRS1, hRS]
      omega
    · rw [hH2, hH1]
    · rw [hL2, hL1, hRS2, hRS1, hH2, hH1]
      exact hlen
    · exact hlen
    · intro j hj
      rw [hH2, hH1] at hj
      rw [hrows2 j (by rw [hH1]; exact hj)]
      rw [hH1, hW1]
      rw [hrows1 (m.height - 1 - j) (by omega)]
      have hjj : m.height - 1 - (m.height - 1 - j) = j := by omega
      rw [hjj]
      exact reverseRowWords_involutive m.width (m.rowWords j)
        (BitMatrix.rowWf_of_wf m ⟨hW, hH, hRS, hlen, hbound, hpad⟩ j hj)

/-- Witness for C8 at a concrete 3×3 matrix with one corner bit. -/
theorem rotate180_involution_witness :
    ((zeroMatrix 3 3).set 0 0).Wf ∧
      ((zeroMatrix 3 3).set 0 0).rotate180.rotate180 = (zeroMatrix 3 3).set 0 0 :=
  ⟨by decide, (rotate180_involution ((zeroMatrix 3 3).set 0 0) (by decide)).1⟩

/-! ## Helper lemmas for parsing (C7) -/

theorem parseLoop_fuel (s u : List Char) :
    ∀ (n : ℕ) (rem : List Char), rem.length ≤ n →
      ∀ (fuel fuel' : ℕ) (bitsRev : List Bool) (rs : ℕ) (rl : Option ℕ) (nR : ℕ),
      rem.length < fuel → rem.length < fuel' →
      parseLoop s u fuel rem bitsRev rs rl nR = parseLoop s u fuel' rem bitsRev rs rl nR := by
  intro n
  induction n with
  | zero =>
    intro rem hlen fuel fuel' bitsRev rs rl nR hf hf'
    have hrem : rem = [] := List.length_eq_zero.mp (by omega)
    subst hrem
    obtain ⟨f, rfl⟩ : ∃ f, fuel = f + 1 := ⟨fuel - 1, by omega⟩
    obtain ⟨f', rfl⟩ : ∃ f', fuel' = f' + 1 := ⟨fuel' - 1, by omega⟩
    rfl
  | succ n ih =>
    intro rem hlen fuel fuel' bitsRev rs rl nR hf hf'
    obtain ⟨f, rfl⟩ : ∃ f, fuel = f + 1 := ⟨fuel - 1, by omega⟩
    obtain ⟨f', rfl⟩ : ∃ f', fuel' = f' + 1 := ⟨fuel' - 1, by omega⟩
    cases rem with
    | nil => rfl
    | cons c rest =>
      simp only [parseLoop]
      simp only [List.length_cons] at hlen hf hf'
      by_cases h1 : c = '\n' ∨ c = '\r'
      · rw [if_pos h1, if_pos h1]
        by_cases h2 : rs < bitsRev.length
        · rw [if_pos h2, if_pos h2]
          cases rl with
          | none =>
            dsimp only
            exact ih rest (by omega) f f' _ _ _ _ (by omega) (by omega)
          | some rlv =>
            dsimp only
            by_cases h3 : bitsRev.length - rs = rlv
            · rw [if_pos h3, if_pos h3]
              exact ih rest (by omega) f f' _ _ _ _ (by omega) (by omega)
            · rw [if_neg h3, if_neg h3]
        · rw [if_neg h2, if_neg h2]
          exact ih rest (by omega) f f' _ _ _ _ (by omega) (by omega)
      · rw [if_neg h1, if_neg h1]
        by_cases h2 : s.isPrefixOf (c :: rest)
        · rw [if_pos h2, if_pos h2]
          by_cases h3 : s = []
          · rw [if_pos h3, if_pos h3]
          · rw [if_neg h3, if_neg h3]
            have hs1 : 1 ≤ s.length := by
              cases s with
              | nil => exact absurd rfl h3
              | cons a as => simp
            apply ih
            · simp only [List.length_drop, List.length_cons]
              omega
            · simp only [List.length_drop, List.length_cons]
              omega
            · simp only [List.length_drop, List.length_cons]
              omega
        · rw [if_neg h2, if_neg h2]
          by_cases h4 : u.isPrefixOf (c :: rest)
          · rw [if_pos h4, if_pos h4]
            by_cases h5 : u = []
            · rw [if_pos h5, if_pos h5]
            · rw [if_neg h5, if_neg h5]
              have hu1 : 1 ≤ u.length := by
                cases u with
                | nil => exact absurd rfl h5
                | cons a as => simp
              apply ih
              · simp only [List.length_drop, List.length_cons]
                omega
              · simp only [List.length_drop, List.length_cons]
                omega
              · simp only [List.length_drop, List.length_cons]
                omega
          · rw [if_neg h4, if_neg h4]

theorem not_prefix_of_append (s u : List Char) (X : List Char)
    (hsu : ¬ s <+: u) (hus : ¬ u <+: s) : ¬ s <+: u ++ X := by
  intro h
  rcases le_or_lt s.length u.length with hle | hlt
  · exact hsu (List.prefix_of_prefix_length_le h (u.prefix_append X) hle)
  · exact hus (List.prefix_of_prefix_length_le (u.prefix_append X) h (by omega))

theorem token_ne_nil (s u : List Char) (hsu : ¬ s <+: u) : s ≠ [] := by
  intro h
  subst h
  exact hsu (List.nil_prefix)

theorem parseLoop_token (s u : List Char) (hg : GoodTokens s u) (b : Bool)
    (X : List Char) (fuel : ℕ) (bitsRev : List Bool) (rs : ℕ) (rl : Option ℕ) (nR : ℕ)
    (hfuel : ((if b then s else u) ++ X).length < fuel) :
    parseLoop s u fuel ((if b then s else u) ++ X) bitsRev rs rl nR =
      parseLoop s u (X.length + 1) X (b :: bitsRev) rs rl nR := by
  obtain ⟨hsu, hus, hsh, huh⟩ := hg
  have hs0 : s ≠ [] := token_ne_nil s u hsu
  have hu0 : u ≠ [] := token_ne_nil u s hus
  obtain ⟨f, rfl⟩ : ∃ f, fuel = f + 1 := ⟨fuel - 1, by omega⟩
  cases b with
  | true =>
    obtain ⟨c, ts, rfl⟩ : ∃ c ts, s = c :: ts := by
      cases s with
      | nil => exact absurd rfl hs0
      | cons a as => exact ⟨a, as, rfl⟩
    simp only [if_pos rfl] at hfuel ⊢
    show parseLoop (c :: ts) u (f + 1) (c :: (ts ++ X)) bitsRev rs rl nR = _
    simp only [parseLoop]
    rw [if_neg (hsh c rfl)]
    rw [if_pos (by
      rw [List.isPrefixOf_iff_prefix]
      exact (c :: ts).prefix_append X)]
    rw [if_neg (by simp)]
    have hdrop : (c :: (ts ++ X)).drop (c :: ts).length = X := by
      have : c :: (ts ++ X) = (c :: ts) ++ X := rfl
      rw [this, List.drop_left]
    rw [hdrop]
    apply parseLoop_fuel (c :: ts) u X.length X le_rfl
    · simp at hfuel
      omega
    · omega
  | false =>
    obtain ⟨c, ts, rfl⟩ : ∃ c ts, u = c :: ts := by
      cases u with
      | nil => exact absurd rfl hu0
      | cons a as => exact ⟨a, as, rfl⟩
    simp only [Bool.false_eq_true, if_neg] at hfuel ⊢
    show parseLoop s (c :: ts) (f + 1) (c :: (ts ++ X)) bitsRev rs rl nR = _
    simp only [parseLoop]
    rw [if_neg (huh c rfl)]
    rw [if_neg (by
      rw [List.isPrefixOf_iff_prefix]
      exact not_prefix_of_append s (c :: ts) X hsu hus)]
    rw [if_pos (by
      rw [List.isPrefixOf_iff_prefix]
      exact (c :: ts).prefix_append X)]
    rw [if_neg (by simp)]
    have hdrop : (c :: (ts ++ X)).drop (c :: ts).length = X := by
      have : c :: (ts ++ X) = (c :: ts) ++ X := rfl
      rw [this, List.drop_left]
    rw [hdrop]
    apply parseLoop_fuel s (c :: ts) X.length X le_rfl
    · simp at hfuel
      omega
    · omega

theorem parseLoop_row (s u : List Char) (hg : GoodTokens s u) :
    ∀ (row : List Bool) (X : List Char) (fuel : ℕ) (bitsRev : List Bool)
      (rs : ℕ) (rl : Option ℕ) (nR : ℕ),
      (encRow s u row ++ X).length < fuel →
      parseLoop s u fuel (encRow s u row ++ X) bitsRev rs rl nR =
        parseLoop s u (X.length + 1) X (row.reverse ++ bitsRev) rs rl nR := by
  intro row
  induction row with
  | nil =>
    intro X fuel bitsRev rs rl nR hfuel
    simp only [encRow, List.map_nil, List.flatten_nil, List.nil_append] at hfuel ⊢
    simp only [List.reverse_nil, List.nil_append]
    exact parseLoop_fuel s u X.length X le_rfl fuel (X.length + 1) _ _ _ _ hfuel (by omega)
  | cons b r ih =>
    intro X fuel bitsRev rs rl nR hfuel
    have hshape : encRow s u (b :: r) ++ X =
        (if b then s else u) ++ (encRow s u r ++ X) := by
      simp [encRow, List.append_assoc]
    rw [hshape] at hfuel ⊢
    rw [parseLoop_token s u hg b _ fuel bitsRev rs rl nR hfuel]
    rw [ih X ((encRow s u r ++ X).length + 1) (b :: bitsRev) rs rl nR (by omega)]
    congr 1
    simp

theorem parseLoop_rows (s u : List Char) (hg : GoodTokens s u) (W : ℕ) (hW : 1 ≤ W) :
    ∀ (rows : List (List Bool)) (k : ℕ) (acc : List Bool) (fuel : ℕ),
      (∀ r ∈ rows, r.length = W) → acc.length = k * W →
      (encRows s u rows).length < fuel →
      parseLoop s u fuel (encRows s u rows) acc acc.length
          (if k = 0 then none else some W) k =
        parseFinish (rows.flatten.reverse ++ acc) (rows.flatten.reverse ++ acc).length
          (if k + rows.length = 0 then none else some W) (k + rows.length) := by
  intro rows
  induction rows with
  | nil =>
    intro k acc fuel hlen hacc hfuel
    obtain ⟨f, rfl⟩ : ∃ f, fuel = f + 1 := ⟨fuel - 1, by omega⟩
    simp only [encRows, List.map_nil, List.flatten_nil, List.reverse_nil, List.nil_append,
      List.length_nil, Nat.add_zero]
    rfl
  | cons r rows' ih =>
    intro k acc fuel hlen hacc hfuel
    have hrlen : r.length = W := hlen r (by simp)
    have hshape : encRows s u (r :: rows') =
        encRow s u r ++ (('\n') :: encRows s u rows') := by
      simp [encRows, List.append_assoc]
    rw [hshape] at hfuel ⊢
    rw [parseLoop_row s u hg r _ fuel acc acc.length _ k hfuel]
    show parseLoop s u ((encRows s u rows').length + 1 + 1)
      (('\n') :: encRows s u rows') (r.reverse ++ acc) acc.length _ k = _
    simp only [parseLoop]
    rw [if_pos (Or.inl trivial)]
    rw [if_pos (by
      simp only [List.length_append, List.length_reverse, hrlen]
      omega)]
    have hlenacc : (r.reverse ++ acc).length - acc.length = W := by
      simp only [List.length_append, List.length_reverse, hrlen]
      omega
    have hacc' : (r.reverse ++ acc).length = (k + 1) * W := by
      simp only [List.length_append, List.length_reverse, hrlen, hacc]
      ring
    have hfin : parseLoop s u ((encRows s u rows').length + 1) (encRows s u rows')
        (r.reverse ++ acc) (r.reverse ++ acc).length (some W) (k + 1) =
        parseFinish (rows'.flatten.reverse ++ (r.reverse ++ acc))
          (rows'.flatten.reverse ++ (r.reverse ++ acc)).length
          (if (k + 1) + rows'.length = 0 then none else some W) ((k + 1) + rows'.length) := by
      have := ih (k + 1) (r.reverse ++ acc) ((encRows s u rows').length + 1)
        (fun r' hr' => hlen r' (by simp [hr'])) hacc' (by omega)
      rwa [if_neg (by omega)] at this
    have hjoin : rows'.flatten.reverse ++ (r.reverse ++ acc) =
        (r :: rows').flatten.reverse ++ acc := by
      simp [List.append_assoc]
    have hcount : (k + 1) + rows'.length = k + (r :: rows').length := by
      simp
      omega
    by_cases hk : k = 0
    · rw [if_pos hk]
      dsimp only
      rw [hlenacc, hfin, hjoin, hcount]
    · rw [if_neg hk]
      dsimp only
      rw [if_pos hlenacc, hfin, hjoin, hcount]

theorem length_flatten_uniform {α : Type _} (rows : List (List α)) (W : ℕ)
    (h : ∀ r ∈ rows, r.length = W) : rows.flatten.length = W * rows.length := by
  induction rows with
  | nil => simp
  | cons r rs ih =>
    simp only [List.flatten_cons, List.length_append, List.length_cons,
      h r (by simp), ih (fun r' hr' => h r' (by simp [hr']))]
    ring

theorem flatten_uniform_getD {α : Type _} [Inhabited α] (rows : List (List α)) (W : ℕ)
    (hW : 1 ≤ W) (h : ∀ r ∈ rows, r.length = W) (d : α) :
    ∀ i, i < W * rows.length →
      rows.flatten.getD i d = (rows.getD (i / W) []).getD (i % W) d := by
  induction rows with
  | nil => intro i hi; simp at hi
  | cons r rs ih =>
    intro i hi
    rcases Nat.lt_or_ge i W with hiW | hiW
    · have hdiv : i / W = 0 := Nat.div_eq_of_lt hiW
      have hmod : i % W = i := Nat.mod_eq_of_lt hiW
      rw [List.flatten_cons, List.getD_eq_getElem?_getD, List.getElem?_append_left (by
        rw [h r (by simp)]
        exact hiW)]
      rw [hdiv, hmod]
      simp [List.getD_eq_getElem?_getD]
    · have hdiv : i / W = (i - W) / W + 1 := Nat.div_eq_sub_div (by omega) hiW
      have hmod : i % W = (i - W) % W := Nat.mod_eq_sub_mod hiW
      rw [List.flatten_cons, List.getD_eq_getElem?_getD, List.getElem?_append_right (by
        rw [h r (by simp)]
        exact hiW)]
      rw [h r (by simp), ← List.getD_eq_getElem?_getD,
        ih (fun r' hr' => h r' (by simp [hr'])) (i - W) (by
          simp only [List.length_cons] at hi
          have : W * (rs.length + 1) = W * rs.length + W := by ring
          omega)]
      rw [hdiv, hmod]
      simp

/-! ## Rebuilding the matrix from the recorded bits -/

theorem buildFold_succ (bools : List Bool) (w h k : ℕ) :
    buildFold bools w h (k + 1) =
      (if bools.getD k false then (buildFold bools w h k).set (k % w) (k / w)
       else buildFold bools w h k) := by
  unfold buildFold
  rw [List.range_succ, List.foldl_append]
  rfl

theorem buildFromBools_eq_fold (bools : List Bool) (w h : ℕ) :
    buildFromBools bools w h = buildFold bools w h bools.length := rfl

theorem buildFold_fields (bools : List Bool) (w h n : ℕ) :
    (buildFold bools w h n).width = w ∧ (buildFold bools w h n).height = h ∧
    (buildFold bools w h n).rowSize = (w + 31) / 32 ∧
    (buildFold bools w h n).bits.length = (w + 31) / 32 * h := by
  induction n with
  | zero => exact ⟨rfl, rfl, rfl, by simp [buildFold, zeroMatrix]⟩
  | succ k ih =>
    rw [buildFold_succ]
    split
    · exact ⟨ih.1, ih.2.1, ih.2.2.1, by simp [BitMatrix.set, ih.2.2.2]⟩
    · exact ih

theorem buildFold_testBit (bools : List Bool) (w h : ℕ) :
    ∀ (n o b : ℕ),
      ((buildFold bools w h n).bits.getD o 0).testBit b = true ↔
        ∃ i < n, bools.getD i false = true ∧
          i / w * ((w + 31) / 32) + i % w / 32 = o ∧ i % w % 32 = b ∧
          o < (w + 31) / 32 * h := by
  intro n
  induction n with
  | zero =>
    intro o b
    simp [buildFold, zeroMatrix, getD_replicate_zero]
  | succ k ih =>
    intro o b
    have hf := buildFold_fields bools w h k
    have hlen : (buildFold bools w h k).bits.length = (w + 31) / 32 * h := hf.2.2.2
    rw [buildFold_succ]
    by_cases hk : bools.getD k false = true
    · rw [if_pos hk]
      unfold BitMatrix.set
      dsimp only
      rw [hf.2.2.1, getD_set_single]
      by_cases hcase : o = k / w * ((w + 31) / 32) + k % w / 32 ∧
          k / w * ((w + 31) / 32) + k % w / 32 < (buildFold bools w h k).bits.length
      · obtain ⟨ho, hlt⟩ := hcase
        rw [if_pos ⟨ho, hlt⟩, ← ho, Nat.testBit_or, Bool.or_eq_true]
        constructor
        · rintro (h1 | h2)
          · obtain ⟨i, hi, rest⟩ := (ih o b).mp h1
            exact ⟨i, by omega, rest⟩
          · have he : k % w % 32 = b := by
              rw [Nat.testBit_two_pow] at h2
              exact of_decide_eq_true h2
            refine ⟨k, by omega, hk, ho.symm, he, ?_⟩
            rw [ho]
            rw [hlen] at hlt
            exact hlt
        · rintro ⟨i, hi, hbi, hoi, hb32, hoRS⟩
          rcases Nat.lt_succ_iff_lt_or_eq.mp hi with hik | rfl
          · exact Or.inl ((ih o b).mpr ⟨i, hik, hbi, hoi, hb32, hoRS⟩)
          · refine Or.inr ?_
            rw [hb32]
            exact Nat.testBit_two_pow_self
      · rw [if_neg hcase]
        rw [ih o b]
        constructor
        · rintro ⟨i, hik, rest⟩
          exact ⟨i, by omega, rest⟩
        · rintro ⟨i, hi, hbi, hoi, hb32, hoRS⟩
          rcases Nat.lt_succ_iff_lt_or_eq.mp hi with hik | rfl
          · exact ⟨i, hik, hbi, hoi, hb32, hoRS⟩
          · exact absurd ⟨hoi.symm, by rw [hlen, hoi]; exact hoRS⟩ hcase
    · rw [if_neg hk]
      rw [ih o b]
      constructor
      · rintro ⟨i, hik, rest⟩
        exact ⟨i, by omega, rest⟩
      · rintro ⟨i, hi, hbi, rest⟩
        rcases Nat.lt_succ_iff_lt_or_eq.mp hi with hik | rfl
        · exact ⟨i, hik, hbi, rest⟩
        · exact absurd hbi hk

theorem get_natCast (m : BitMatrix) (x y : ℕ) :
    m.get (x : ℤ) (y : ℤ) =
      (m.bits.getD (y * m.rowSize + x / 32) 0).testBit (x % 32) := by
  unfold BitMatrix.get
  dsimp only
  have hfd : Int.fdiv (x : ℤ) 32 = ((x / 32 : ℕ) : ℤ) := by
    rw [Int.fdiv_eq_ediv _ (by norm_num), Int.natCast_div]
    norm_num
  have hmod : ((x : ℤ).emod 32).toNat = x % 32 := by
    rw [show ((x : ℤ).emod 32) = ((x : ℤ) % ((32 : ℕ) : ℤ)) from rfl,
      ← Int.natCast_mod, Int.toNat_natCast]
  rw [hfd, hmod]
  have hoff : ((y : ℤ)) * (m.rowSize : ℤ) + ((x / 32 : ℕ) : ℤ) =
      (((y * m.rowSize + x / 32 : ℕ) : ℤ)) := by
    push_cast
    ring
  rw [hoff]
  rw [if_pos (by positivity)]
  rw [Int.toNat_natCast]

theorem rowsOf_row_length (m : BitMatrix) : ∀ r ∈ rowsOf m, r.length = m.width := by
  intro r hr
  unfold rowsOf at hr
  obtain ⟨y, hy, rfl⟩ := List.mem_map.mp hr
  simp

theorem rowsOf_length (m : BitMatrix) : (rowsOf m).length = m.height := by
  simp [rowsOf]

theorem rowsOf_flatten_length (m : BitMatrix) :
    (rowsOf m).flatten.length = m.width * m.height := by
  rw [length_flatten_uniform (rowsOf m) m.width (rowsOf_row_length m), rowsOf_length]

theorem rowsOf_getD_getD (m : BitMatrix) (y x : ℕ) (hy : y < m.height) (hx : x < m.width) :
    ((rowsOf m).getD y []).getD x false = m.get (x : ℤ) (y : ℤ) := by
  simp [rowsOf, List.getD_eq_getElem?_getD, List.getElem?_map, List.getElem?_range, hy, hx]

theorem rowsOf_flatten_getD (m : BitMatrix) (hw : 1 ≤ m.width) (i : ℕ)
    (hi : i < m.width * m.height) :
    (rowsOf m).flatten.getD i false =
      m.get ((i % m.width : ℕ) : ℤ) ((i / m.width : ℕ) : ℤ) := by
  rw [flatten_uniform_getD (rowsOf m) m.width hw (rowsOf_row_length m) false i
    (by rw [rowsOf_length]; exact hi)]
  exact rowsOf_getD_getD m (i / m.width) (i % m.width)
    (by rw [Nat.div_lt_iff_lt_mul (by omega)]; rw [Nat.mul_comm]; exact hi)
    (Nat.mod_lt _ (by omega))

theorem boolEq_of_iff (a b : Bool) (h : (a = true) ↔ (b = true)) : a = b := by
  cases a <;> cases b <;> simp_all

theorem buildFromBools_rowsOf (m : BitMatrix) (hwf : m.Wf) :
    buildFromBools (rowsOf m).flatten m.width m.height = m := by
  obtain ⟨hw, hh, hRS, hlen, hbound, hpad⟩ := hwf
  have hblen : (rowsOf m).flatten.length = m.width * m.height := rowsOf_flatten_length m
  rw [buildFromBools_eq_fold, hblen]
  have hf := buildFold_fields (rowsOf m).flatten m.width m.height (m.width * m.height)
  apply BitMatrix.bitMatrix_ext _ _ hf.1 hf.2.1 (by rw [hf.2.2.1, hRS])
  apply list_ext_getD _ _ (by rw [hf.2.2.2, hlen, hRS])
  intro o ho
  rw [hf.2.2.2] at ho
  have ho' : o < m.rowSize * m.height := by
    rw [hRS]
    exact ho
  apply Nat.eq_of_testBit_eq
  intro b
  apply boolEq_of_iff
  rw [buildFold_testBit]
  constructor
  · rintro ⟨i, hi, hbi, hoi, hb32, hoRS⟩
    rw [rowsOf_flatten_getD m hw i hi] at hbi
    rw [get_natCast] at hbi
    rw [← hRS] at hoi
    rw [hoi] at hbi
    rw [hb32] at hbi
    exact hbi
  · intro hbit
    have hb32 : b < 32 := by
      by_contra hb
      have hz := testBit_ge_32 (m.bits.getD o 0) b (getD_lt_of_bound m.bits o hbound)
        (by omega)
      rw [hz] at hbit
      exact Bool.false_ne_true hbit
    have hRSpos : 1 ≤ m.rowSize := by
      rw [hRS]
      omega
    have hy : o / m.rowSize < m.height := by
      rw [Nat.div_lt_iff_lt_mul (by omega)]
      rw [Nat.mul_comm]
      exact ho'
    have hj : o % m.rowSize < m.rowSize := Nat.mod_lt _ (by omega)
    have hosplit : o / m.rowSize * m.rowSize + o % m.rowSize = o := by
      rw [Nat.mul_comm]
      exact Nat.div_add_mod o m.rowSize
    have hxlt : 32 * (o % m.rowSize) + b < m.width := by
      by_contra hge
      have hz := hpad (o / m.rowSize) hy (o % m.rowSize) hj b hb32 (by omega)
      rw [hosplit] at hz
      rw [hz] at hbit
      exact Bool.false_ne_true hbit
    have hi : o / m.rowSize * m.width + (32 * (o % m.rowSize) + b) < m.width * m.height := by
      calc o / m.rowSize * m.width + (32 * (o % m.rowSize) + b)
          < o / m.rowSize * m.width + m.width := by omega
        _ = (o / m.rowSize + 1) * m.width := by ring
        _ ≤ m.height * m.width := Nat.mul_le_mul_right _ (by omega)
        _ = m.width * m.height := Nat.mul_comm _ _
    have hidiv : (o / m.rowSize * m.width + (32 * (o % m.rowSize) + b)) / m.width =
        o / m.rowSize := by
      rw [Nat.mul_comm (o / m.rowSize) m.width, Nat.mul_add_div (by omega),
        Nat.div_eq_of_lt hxlt, Nat.add_zero]
    have himod : (o / m.rowSize * m.width + (32 * (o % m.rowSize) + b)) % m.width =
        32 * (o % m.rowSize) + b := by
      rw [Nat.mul_comm (o / m.rowSize) m.width, Nat.mul_add_mod]
      exact Nat.mod_eq_of_lt hxlt
    have hxdiv : (32 * (o % m.rowSize) + b) / 32 = o % m.rowSize := by
      rw [Nat.mul_add_div (by omega), Nat.div_eq_of_lt hb32, Nat.add_zero]
    have hxmod : (32 * (o % m.rowSize) + b) % 32 = b := by
      rw [Nat.mul_add_mod]
      exact Nat.mod_eq_of_lt hb32
    refine ⟨o / m.rowSize * m.width + (32 * (o % m.rowSize) + b), hi, ?_, ?_, ?_, ?_⟩
    · rw [rowsOf_flatten_getD m hw _ hi, himod, hidiv, get_natCast, hxdiv, hxmod, hosplit]
      exact hbit
    · rw [hidiv, himod, hxdiv, ← hRS]
      exact hosplit
    · rw [himod]
      exact hxmod
    · rw [← hRS]
      exact ho'

theorem toStringM_shape (m : BitMatrix) (s u : List Char) :
    BitMatrix.toStringM m s u = ('\n') :: encRows s u (rowsOf m) := by
  unfold BitMatrix.toStringM BitMatrix.buildToString encRows rowsOf encRow
  simp [List.map_map, Function.comp_def]

theorem parse_toStringM (m : BitMatrix) (s u : List Char) (hwf : m.Wf)
    (hg : GoodTokens s u) :
    parseFromString (BitMatrix.toStringM m s u) s u = POut.ok m := by
  have hwf' := hwf
  obtain ⟨hw, hh, hRS, hlen, hbound, hpad⟩ := hwf'
  rw [toStringM_shape]
  unfold parseFromString
  rw [show (('\n') :: encRows s u (rowsOf m)).length + 1 =
    ((encRows s u (rowsOf m)).length + 1) + 1 by simp]
  simp only [parseLoop]
  rw [if_pos (Or.inl trivial)]
  rw [if_neg (by simp)]
  have hrows := parseLoop_rows s u hg m.width hw (rowsOf m) 0 []
    ((encRows s u (rowsOf m)).length + 1) (rowsOf_row_length m) (by simp) (by omega)
  simp only [List.length_nil, List.append_nil, Nat.zero_add] at hrows
  rw [rowsOf_length] at hrows
  rw [if_pos trivial] at hrows
  rw [if_neg (show ¬ m.height = 0 by omega)] at hrows
  rw [hrows]
  unfold parseFinish
  rw [if_neg (by omega)]
  unfold buildParsed
  dsimp only
  rw [if_neg (by push_neg; omega)]
  rw [List.reverse_reverse]
  rw [buildFromBools_rowsOf m hwf]

/-- C7: for every well-formed BitMatrix `M` and tokens `s`, `u` that are
mutually prefix-free and do not begin with a line-break character, parsing
`toString(M, s, u)` with `parseFromString(., s, u)` returns a matrix equal to
`M`; `parseFromString` fails with an `IllegalArgumentException` on inconsistent
row lengths (`"x\nxx\n"` with tokens `"x"`, `" "`) and on text matching neither
token (`"y"` with tokens `"x"`, `" "`). -/
theorem parse_toString_roundtrip (m : BitMatrix) (s u : List Char)
    (hwf : m.Wf) (hg : GoodTokens s u) :
    parseFromString (BitMatrix.toStringM m s u) s u = POut.ok m ∧
    parseFromString ([('x'), ('\n'), ('x'), ('x'), ('\n')]) ([('x')]) ([(' ')]) =
      POut.argError ("row lengths do not match") ∧
    parseFromString ([('y')]) ([('x')]) ([(' ')]) =
      POut.argError ("illegal character encountered: y") :=
  ⟨parse_toStringM m s u hwf hg, by decide, by decide⟩

/-- C7 counterexample to the claim as stated: the tokens `s = "\nx"` and
`u = "y"` are distinct and non-overlapping (neither is a prefix of the other,
and they share no characters), yet parsing `toString(M, s, u)` does not return
`M` — a token beginning with a line-break character is swallowed by the parser's
end-of-line branch, so mere non-overlap of the tokens is not sufficient. -/
theorem parse_toString_counterexample :
    ¬ [('\n'), ('x')] <+: [('y')] ∧ ¬ [('y')] <+: [('\n'), ('x')] ∧
    [('\n'), ('x')] ≠ [('y')] ∧
    parseFromString
        (BitMatrix.toStringM ((zeroMatrix 1 1).set 0 0) [('\n'), ('x')] [('y')])
        [('\n'), ('x')] [('y')] ≠ POut.ok ((zeroMatrix 1 1).set 0 0) := by
  decide

theorem parse_toString_roundtrip_witness :
    ((zeroMatrix 3 2).set 1 0).Wf ∧ GoodTokens [('x')] [(' ')] ∧
    parseFromString (BitMatrix.toStringM ((zeroMatrix 3 2).set 1 0) [('x')] [(' ')])
      [('x')] [(' ')] = POut.ok ((zeroMatrix 3 2).set 1 0) := by
  have hg : GoodTokens [('x')] [(' ')] := by
    refine ⟨by decide, by decide, ?_, ?_⟩
    · intro c hc
      rw [List.head?_cons, Option.some.injEq] at hc
      subst hc
      decide
    · intro c hc
      rw [List.head?_cons, Option.some.injEq] at hc
      subst hc
      decide
  exact ⟨by decide, hg,
    (parse_toString_roundtrip ((zeroMatrix 3 2).set 1 0) [('x')] [(' ')]
      (by decide) hg).1⟩
